import Mathlib

/-!
# tinystl buffer engine: a shallow embedding of `TINYSTL/buffer.h`

Storage is a flat, element-indexed heap of slots of one element type `T`: a
`T*` is a natural number, `p + n` is address arithmetic in element units, and
the byte address behind `(char*)p` is `sizeof(T) * p`.  A slot is either raw
(`none`) or holds an object (`some v`).  Every element operation and every
allocator call is appended to an event log, so that "no allocator call",
"destroys exactly ..." and similar statements can be read off the log.

Machine arithmetic wraps.  A `size_t` result is reduced modulo
`2 ^ size_bits` (`Cfg.to_size`, and `to_size_t` for a signed difference).  A
pointer sum `p + n` computed by a buffer operation wraps at the byte level
(`Cfg.ptr_add`): the byte address `sizeof(T) * p + sizeof(T) * n` is reduced
modulo `2 ^ size_bits` and the result is the slot holding that byte.  When the
sum fits (`Cfg.in_range (p + n)`) this is `p + n`.  Inside the element-range
loops the cursors step through the ranges they are given without reduction.

References are addresses: the fill value of `buffer_resize` is the address of
the slot that holds it, read at each use.

A loop whose exit test is `it != last` only terminates when the cursor can
reach `last`; otherwise the embedded function returns `none`
(`Outcome.diverges` for the buffer operations).
-/

namespace tinystl

/-! ## Data model -/

/-- The calls the buffer engine makes on its collaborators: the allocator
(`static_allocate`, `static_deallocate`) and the element type (constructor,
assignment, destructor), each with the address of the slot it works on. -/
inductive Event where
  | allocate (bytes : Nat) (result : Option Nat)
  | deallocate (addr : Nat) (bytes : Nat)
  | construct (addr : Nat)
  | assign (addr : Nat)
  | destroy (addr : Nat)
  deriving DecidableEq

/-- Allocator calls, as opposed to element operations. -/
def Event.isAllocatorCall : Event → Bool
  | .allocate _ _ => true
  | .deallocate _ _ => true
  | _ => false

/-- Element operations (construct, assign, destroy). -/
def Event.isElementOp : Event → Bool
  | .construct _ => true
  | .assign _ => true
  | .destroy _ => true
  | _ => false

/-- The machine state outside the buffer object: the slots and the log of calls. -/
structure World (T : Type) where
  mem : Nat → Option T
  log : List Event

/-- The struct `buffer<T, Alloc>`: three cursors `T* first, last, capacity`. -/
structure buffer where
  first : Nat
  last : Nat
  capacity : Nat
  deriving DecidableEq

/-- The compile-time parameters of one instantiation `buffer<T, Alloc>`:
`pod` is the value of `TINYSTL_TRY_POD_OPTIMIZATION(T)` selecting
`pod_traits<T, true>` or `pod_traits<T, false>`, `sizeofT` is `sizeof(T)`,
`size_bits` the width of `size_t`, and `static_allocate` the allocator's answer
to a request of a number of bytes given the calls made so far (`none`: out of
memory), as the address of the first slot of the block.  The allocator
(`TINYSTL/allocator.h`) is a collaborator outside the two source files at
hand, so it is a parameter here. -/
structure Cfg where
  pod : Bool
  sizeofT : Nat
  size_bits : Nat
  static_allocate : List Event → Nat → Option Nat

/-- How a buffer operation ends: it returns (`done`), the allocation failure
propagates out of it (`bad_alloc`, with the state at that point), or a
loop never reaches its exit test (`diverges`). -/
inductive Outcome (T : Type) where
  | done (w : World T) (b : buffer)
  | bad_alloc (w : World T) (b : buffer)
  | diverges

variable {T : Type}

/-- The slots `[p, p + n)`, in address order. -/
def World.slots (w : World T) (p n : Nat) : List (Option T) :=
  (List.range n).map (fun i => w.mem (p + i))

/-- The slots of the live range `[first, last)` of a buffer. -/
def buffer.elems (b : buffer) (w : World T) : List (Option T) :=
  w.slots b.first (b.last - b.first)

/-- Number of live elements, `last - first`. -/
def buffer.size (b : buffer) : Nat := b.last - b.first

/-- Capacity in elements, `capacity - first`. -/
def buffer.cap (b : buffer) : Nat := b.capacity - b.first

/-- The cursor ordering `first <= last <= capacity`. -/
def buffer.wf (b : buffer) : Prop := b.first ≤ b.last ∧ b.last ≤ b.capacity

instance (b : buffer) : Decidable b.wf := by unfold buffer.wf; infer_instance

/-- The buffer holds exactly the values `xs`, all constructed. -/
def buffer.holds (b : buffer) (w : World T) (xs : List T) : Prop :=
  b.elems w = xs.map some

/-- The allocator calls in the log, in order. -/
def World.allocCalls (w : World T) : List Event := w.log.filter Event.isAllocatorCall

/-- The element operations in the log, in order. -/
def World.elementOps (w : World T) : List Event := w.log.filter Event.isElementOp

/-- The block `[nf, nf + n)` handed out by the allocator shares no slot with
the range `[lo, hi)`. -/
def fresh_from (nf n lo hi : Nat) : Prop := nf + n ≤ lo ∨ hi ≤ nf

instance (nf n lo hi : Nat) : Decidable (fresh_from nf n lo hi) := by
  unfold fresh_from; infer_instance

/-! ## Element operations -/

/-- Store `s` in slot `p` and log the call `e`. -/
def World.put (w : World T) (p : Nat) (s : Option T) (e : Event) : World T :=
  { mem := fun a => if a = p then s else w.mem a, log := w.log ++ [e] }

/-- Log a call that touches no slot. -/
def World.note (w : World T) (e : Event) : World T :=
  { mem := w.mem, log := w.log ++ [e] }

/-- The destructor call `p->~T()`: afterwards the slot holds no object. -/
def destroy_at (p : Nat) (w : World T) : World T :=
  w.put p none (Event.destroy p)

/-- Placement copy construction from another slot, `new(placeholder(), p) T(*src)`. -/
def copy_construct (p src : Nat) (w : World T) : World T :=
  w.put p (w.mem src) (Event.construct p)

/-- Plain assignment from another slot, `*p = *src`. -/
def assign_from (p src : Nat) (w : World T) : World T :=
  w.put p (w.mem src) (Event.assign p)

/-- Modelled from the spec: `move_construct(dest, *it)` is declared outside the
two source files at hand; by 4.2 it is "construct-by-move into destination",
the source object staying in place until it is destroyed. -/
def move_construct (dest src : Nat) (w : World T) : World T :=
  w.put dest (w.mem src) (Event.construct dest)

/-- Modelled from the spec: `move(*dest, *it)` is declared outside the two
source files at hand; by 4.4 it is a "forward move/assignment" of the source
element onto the destination element. -/
def move (dest src : Nat) (w : World T) : World T :=
  w.put dest (w.mem src) (Event.assign dest)

/-- The conversion `(size_t)d` of a signed difference. -/
def to_size_t (bits : Nat) (d : Int) : Nat := (d % (2 : Int) ^ bits).toNat

/-- The result of unsigned `size_t` arithmetic: the value modulo `2 ^ size_bits`. -/
def Cfg.to_size (cfg : Cfg) (x : Nat) : Nat := x % 2 ^ cfg.size_bits

/-- The pointer sum `p + n` on a `T*`: the byte address
`sizeof(T) * p + sizeof(T) * n` wraps modulo `2 ^ size_bits`, and the pointer
is the slot that holds this byte (its first byte whenever the sum does not
wrap or `sizeof(T)` divides `2 ^ size_bits`). -/
def Cfg.ptr_add (cfg : Cfg) (p n : Nat) : Nat :=
  cfg.to_size (cfg.sizeofT * p + cfg.sizeofT * n) / cfg.sizeofT

/-- The slot address (or element count) `x` has a byte value `sizeof(T) * x`
that fits `size_t`. -/
def Cfg.in_range (cfg : Cfg) (x : Nat) : Prop := cfg.sizeofT * x < 2 ^ cfg.size_bits

instance (cfg : Cfg) (x : Nat) : Decidable (cfg.in_range x) := by
  unfold Cfg.in_range; infer_instance

/-! ## Element-range operations -/

/-- Run `n` rounds of a loop with one cursor stepping upward from `p`. -/
def loop_up1 (body : Nat → World T → World T) : Nat → Nat → World T → World T
  | 0, _, w => w
  | n + 1, p, w => loop_up1 body n (p + 1) (body p w)

/-- Run `n` rounds of a loop with two cursors stepping upward together:
`for (...; ++it, ++dest) body(dest, it)`. -/
def loop_up2 (body : Nat → Nat → World T → World T) : Nat → Nat → Nat → World T → World T
  | 0, _, _, w => w
  | n + 1, dest, it, w => loop_up2 body n (dest + 1) (it + 1) (body dest it w)

/-- Run `n` rounds of a loop with two cursors stepping downward together, the
body working on the slots just below them:
`for (...; --it, --dest) body(dest - 1, it - 1)`. -/
def loop_down2 (body : Nat → Nat → World T → World T) : Nat → Nat → Nat → World T → World T
  | 0, _, _, w => w
  | n + 1, dest, it, w => loop_down2 body n (dest - 1) (it - 1) (body (dest - 1) (it - 1) w)

/-- Overloads `buffer_destroy_range_traits(first, last, pod_traits<T, pod>)`:
`for (; first < last; ++first) first->~T();` runs `last - first` times (not at
all when `last <= first`); the plain overload has an empty body. -/
def buffer_destroy_range_traits (first last : Nat) (pod : Bool) (w : World T) : World T :=
  match pod with
  | false => loop_up1 destroy_at (last - first) first w
  | true => w

/-- Dispatch `buffer_destroy_range(first, last)` on `pod_traits<T>()`. -/
def buffer_destroy_range (pod : Bool) (first last : Nat) (w : World T) : World T :=
  buffer_destroy_range_traits first last pod w

/-- Overloads `buffer_fill_urange_traits(first, last, value, pod_traits<T, pod>)`:
`for (; first < last; ++first)` with body `new(placeholder(), first) T(value)`
(complex) or `*first = value` (plain).  The parameter `const T& value` is the
address of the slot holding the value, read in each round. -/
def buffer_fill_urange_traits (first last : Nat) (value : Nat) (pod : Bool) (w : World T) :
    World T :=
  match pod with
  | false => loop_up1 (fun p => copy_construct p value) (last - first) first w
  | true => loop_up1 (fun p => assign_from p value) (last - first) first w

/-- Overloads `buffer_move_urange_traits(dest, first, last, pod_traits<T, pod>)`.
Both loops test `!= last`, so they end only when `first <= last`.
Complex: `move_construct(dest, *it)` for each element, then
`buffer_destroy_range(first, last)`.  Plain: `*dest = *first`. -/
def buffer_move_urange_traits (dest first last : Nat) (pod : Bool) (w : World T) :
    Option (World T) :=
  if first ≤ last then
    match pod with
    | false =>
      some (buffer_destroy_range false first last
        (loop_up2 move_construct (last - first) dest first w))
    | true => some (loop_up2 assign_from (last - first) dest first w)
  else none

/-- Overloads `buffer_bmove_urange_traits(dest, first, last, pod_traits<T, pod>)`:
`dest += (last - first); for (T* it = last; it != first; --it, --dest)` with body
`move_construct(dest - 1, *(it - 1)); buffer_destroy_range(it - 1, it);` (complex)
or `*(dest - 1) = *(it - 1)` (plain).  The loop ends only when `first <= last`. -/
def buffer_bmove_urange_traits (dest first last : Nat) (pod : Bool) (w : World T) :
    Option (World T) :=
  if first ≤ last then
    match pod with
    | false =>
      some (loop_down2
        (fun d s w1 => buffer_destroy_range false s (s + 1) (move_construct d s w1))
        (last - first) (dest + (last - first)) last w)
    | true => some (loop_down2 assign_from (last - first) (dest + (last - first)) last w)
  else none

/-- Dispatch `buffer_move_urange(dest, first, last)` on `pod_traits<T>()`. -/
def buffer_move_urange (pod : Bool) (dest first last : Nat) (w : World T) : Option (World T) :=
  buffer_move_urange_traits dest first last pod w

/-- Dispatch `buffer_bmove_urange(dest, first, last)` on `pod_traits<T>()`. -/
def buffer_bmove_urange (pod : Bool) (dest first last : Nat) (w : World T) : Option (World T) :=
  buffer_bmove_urange_traits dest first last pod w

/-- Dispatch `buffer_fill_urange(first, last, value)` on `pod_traits<T>()`. -/
def buffer_fill_urange (pod : Bool) (first last : Nat) (value : Nat) (w : World T) : World T :=
  buffer_fill_urange_traits first last value pod w

/-! ## Buffer core -/

/-- The function `buffer_init`: `b->first = b->last = b->capacity = 0`. -/
def buffer_init (w : World T) (_b : buffer) : World T × buffer :=
  (w, { first := 0, last := 0, capacity := 0 })

/-- The function `buffer_destroy`: destroy the range `[first, last)`, then
`static_deallocate(b->first, (size_t)((char*)b->first - (char*)b->last))`. -/
def buffer_destroy (cfg : Cfg) (w : World T) (b : buffer) : World T :=
  let w1 := buffer_destroy_range cfg.pod b.first b.last w
  w1.note (Event.deallocate b.first
    (to_size_t cfg.size_bits
      ((cfg.sizeofT * b.first : Nat) - (cfg.sizeofT * b.last : Nat) : Int)))

/-- The function `buffer_reserve(b, capacity)`: return at once when
`b->first + capacity <= b->capacity` (a pointer sum); otherwise allocate
`sizeof(T) * capacity` bytes (a `size_t` product; an allocator out of memory
does not return: the failure propagates out of the call, so nothing after it
runs), move the live range, `static_deallocate(b->first, sizeof(T) * capacity)`,
and set the cursors to `newfirst`, `newfirst + size`, `newfirst + capacity`. -/
def buffer_reserve (cfg : Cfg) (capacity : Nat) (w : World T) (b : buffer) : Outcome T :=
  if cfg.ptr_add b.first capacity ≤ b.capacity then
    Outcome.done w b
  else
    let size := b.last - b.first
    match cfg.static_allocate w.log (cfg.to_size (cfg.sizeofT * capacity)) with
    | none =>
      Outcome.bad_alloc
        (w.note (Event.allocate (cfg.to_size (cfg.sizeofT * capacity)) none)) b
    | some newfirst =>
      let w1 := w.note (Event.allocate (cfg.to_size (cfg.sizeofT * capacity)) (some newfirst))
      match buffer_move_urange cfg.pod newfirst b.first b.last w1 with
      | none => Outcome.diverges
      | some w2 =>
        let w3 := w2.note (Event.deallocate b.first (cfg.to_size (cfg.sizeofT * capacity)))
        Outcome.done w3
          { first := newfirst, last := cfg.ptr_add newfirst size,
            capacity := cfg.ptr_add newfirst capacity }

/-- The function `buffer_resize(b, size, value)`; `value` is the address behind
the reference `const T& value`, read by the fill after the reservation. -/
def buffer_resize (cfg : Cfg) (size : Nat) (value : Nat) (w : World T) (b : buffer) :
    Outcome T :=
  match buffer_reserve cfg size w b with
  | Outcome.done w1 b1 =>
    let w2 := buffer_fill_urange cfg.pod b1.last (cfg.ptr_add b1.first size) value w1
    let w3 := buffer_destroy_range cfg.pod (cfg.ptr_add b1.first size) b1.last w2
    Outcome.done w3 { b1 with last := cfg.ptr_add b1.first size }
  | r => r

/-- The function `buffer_clear(b)`: destroy the range `[first, last)`, then `b->last = b->first`. -/
def buffer_clear (cfg : Cfg) (w : World T) (b : buffer) : World T × buffer :=
  (buffer_destroy_range cfg.pod b.first b.last w, { b with last := b.first })

/-- The function `buffer_insert(b, where, first, last)`: `pos` is `where`, and
`[sfirst, slast)` the source range `first, last`.  The copy loop tests
`first != last`, so it ends only when `sfirst <= slast`.  The sizes `newsize`
and `(newsize * 3) / 2` are `size_t` results; `b->first + newsize`,
`b->first + offset` and `where + count` are pointer sums. -/
def buffer_insert (cfg : Cfg) (pos sfirst slast : Nat) (w : World T) (b : buffer) : Outcome T :=
  let offset := pos - b.first
  let newsize := cfg.to_size ((b.last - b.first) + (slast - sfirst))
  let r :=
    if cfg.ptr_add b.first newsize > b.capacity then
      buffer_reserve cfg (cfg.to_size (newsize * 3) / 2) w b
    else Outcome.done w b
  match r with
  | Outcome.done w1 b1 =>
    let pos1 := cfg.ptr_add b1.first offset
    let count := slast - sfirst
    let moved :=
      if pos1 ≠ b1.last then
        buffer_bmove_urange cfg.pod (cfg.ptr_add pos1 count) pos1 b1.last w1
      else some w1
    match moved with
    | none => Outcome.diverges
    | some w2 =>
      if sfirst ≤ slast then
        Outcome.done (loop_up2 copy_construct count pos1 sfirst w2)
          { b1 with last := cfg.ptr_add b1.first newsize }
      else Outcome.diverges
  | r1 => r1

/-- The function `buffer_erase(b, first, last)`, with the returned cursor.  The move loop
runs `it` from `last` until `it == b->last`, so it ends only when
`last <= b->last`; `b->last - (last - first)` is taken with the sign of the
difference. -/
def buffer_erase (cfg : Cfg) (first last : Nat) (w : World T) (b : buffer) :
    Option (World T × buffer × Nat) :=
  if last ≤ b.last then
    let w1 := loop_up2 move (b.last - last) first last w
    let newlast := if first ≤ last then b.last - (last - first) else b.last + (first - last)
    let w2 := buffer_destroy_range cfg.pod newlast b.last w1
    some (w2, { b with last := newlast }, first)
  else none

/-- The function `buffer_swap(b, other)`: the three cursors change places; no slot and no
collaborator is touched. -/
def buffer_swap (w : World T) (b other : buffer) : World T × buffer × buffer :=
  let tfirst := b.first
  let tlast := b.last
  let tcapacity := b.capacity
  let b1 : buffer := { first := other.first, last := other.last, capacity := other.capacity }
  let other1 : buffer := { first := tfirst, last := tlast, capacity := tcapacity }
  (w, b1, other1)

/-! ## Sample states -/

/-- A world with the values `vs` stored from address `base` on and an empty log. -/
def World.ofList (base : Nat) (vs : List T) : World T :=
  { mem := fun a => if base ≤ a then vs.get? (a - base) else none, log := [] }

/-- An allocator that always answers with address `a`. -/
def alloc_at (a : Nat) : List Event → Nat → Option Nat := fun _ _ => some a

/-- Spec 4.3, in its own words: reserve is a "no-op if current capacity
(`capacity_end - begin`, in element units) already ≥ `requested_capacity`". -/
def reserve_is_noop_spec (b : buffer) (requested_capacity : Nat) : Bool :=
  decide (requested_capacity ≤ b.capacity - b.first)

/-- The element operations logged by a forward move of `n` slots to `dest`. -/
def move_events (pod : Bool) (dest first n : Nat) : List Event :=
  match pod with
  | false => (List.range n).map (fun i => Event.construct (dest + i)) ++
      (List.range n).map (fun i => Event.destroy (first + i))
  | true => (List.range n).map (fun i => Event.assign (dest + i))

/-- The destructor calls logged by destroying `n` slots from `first` on: one
per slot for a complex type, none for a plain type. -/
def destroy_events (pod : Bool) (first n : Nat) : List Event :=
  match pod with
  | false => (List.range n).map (fun i => Event.destroy (first + i))
  | true => []

/-- The part of `buffer_insert` after the reservation: recompute the
position from the offset, open the gap, copy the source range, set `last`. -/
def insert_finish (cfg : Cfg) (offset newsize sfirst slast : Nat) (w1 : World T) (b1 : buffer) :
    Outcome T :=
  let pos1 := cfg.ptr_add b1.first offset
  let count := slast - sfirst
  let moved :=
    if pos1 ≠ b1.last then
      buffer_bmove_urange cfg.pod (cfg.ptr_add pos1 count) pos1 b1.last w1
    else some w1
  match moved with
  | none => Outcome.diverges
  | some w2 =>
    if sfirst ≤ slast then
      Outcome.done (loop_up2 copy_construct count pos1 sfirst w2)
        { b1 with last := cfg.ptr_add b1.first newsize }
    else Outcome.diverges

instance [DecidableEq T] (b : buffer) (w : World T) (xs : List T) :
    Decidable (b.holds w xs) := by unfold buffer.holds; infer_instance

/-- Instantiation for a complex element type of four bytes whose allocator
answers every request with the block at address 100. -/
def complex_cfg : Cfg :=
  { pod := false, sizeofT := 4, size_bits := 64, static_allocate := alloc_at 100 }

/-- The same instantiation for a plain element type. -/
def plain_cfg : Cfg :=
  { pod := true, sizeofT := 4, size_bits := 64, static_allocate := alloc_at 100 }

/-- Slots 10, 11, 12 hold 1, 2, 3; slots 20, 21 hold 7, 8. -/
def sample_world : World Nat :=
  { mem := fun a => [(10, 1), (11, 2), (12, 3), (20, 7), (21, 8)].lookup a, log := [] }

/-- A full buffer over slots 10 to 12. -/
def sample_buffer : buffer := { first := 10, last := 13, capacity := 13 }

/-- A buffer over slots 10 to 12 with room for two more elements. -/
def roomy_buffer : buffer := { first := 10, last := 13, capacity := 15 }

/-- An allocator that answers its requests with the blocks at addresses 100,
200, 300, ... in turn, whatever their size. -/
def alloc_bump : List Event → Nat → Option Nat :=
  fun log _ => some (100 * ((log.filter Event.isAllocatorCall).length / 2 + 1))

/-- An instantiation of four-byte elements over `alloc_bump`, for either trait. -/
def bump_cfg (pod : Bool) : Cfg :=
  { pod := pod, sizeofT := 4, size_bits := 64, static_allocate := alloc_bump }

/-- The empty buffer `buffer_init` leaves. -/
def empty_buffer : buffer := { first := 0, last := 0, capacity := 0 }

/-- Slots 10, 11, 12 hold 1, 2, 3, slot 20 holds 9 and slot 30 holds 0: the
source ranges and the fill value of the scenario, away from the blocks of
`alloc_bump`. -/
def scenario_world : World Nat :=
  { mem := fun a => [(10, 1), (11, 2), (12, 3), (20, 9), (30, 0)].lookup a, log := [] }

/-! ## Generic swap utility (`TINYSTL/traits.h`) -/

/-- The operations the swap utility performs on the element type. -/
inductive SwapOp where
  | construct_temporary
  | assign
  | member_swap
  deriving DecidableEq

/-- Overload `swap_impl(T& a, T& b, ...)`: `T t = b; b = a; a = t;`.  The
result is the pair of values of `a` and `b` afterwards and the operations
performed, in order. -/
def swap_impl_fallback (a b : T) : (T × T) × List SwapOp :=
  let t := b
  let b1 := a
  let a1 := t
  ((a1, b1), [SwapOp.construct_temporary, SwapOp.assign, SwapOp.assign])

/-- Overload `swap_impl(T& a, T& b, T*, swap_holder<void (T::*)(T&), &T::swap>* = 0)`:
`a.swap(b)`, with `member` the member function `T::swap`. -/
def swap_impl_member (member : T → T → T × T) (a b : T) : (T × T) × List SwapOp :=
  (member a b, [SwapOp.member_swap])

/-- The function `swap(a, b)`: `swap_impl(a, b, (T*)0)`.  The overload taking
`T*` exists only when `T` has a member `void swap(T&)` (`member = some _`) and
is then preferred to the variadic one. -/
def swap (member : Option (T → T → T × T)) (a b : T) : (T × T) × List SwapOp :=
  match member with
  | some m => swap_impl_member m a b
  | none => swap_impl_fallback a b

/-! ## The same functions over an element type given by its destructor

Above, the destructor call `p->~T()` ends the lifetime of the object and
leaves the slot raw (`destroy_at`).  To speak of an element type whose
destructor has no effect on the stored value, the functions that reach a
destructor call are repeated here with that call as a parameter `dtor`; at
`dtor = destroy_at` they are the functions above. -/

/-- The destructor call of an element type whose destructor does nothing to
the stored value: the call is logged and the slot keeps what it holds. -/
def destroy_trivial (p : Nat) (w : World T) : World T :=
  w.note (Event.destroy p)

/-- Overloads `buffer_destroy_range_traits`, with the destructor call `dtor`. -/
def buffer_destroy_range_traits_with (dtor : Nat → World T → World T) (first last : Nat)
    (pod : Bool) (w : World T) : World T :=
  match pod with
  | false => loop_up1 dtor (last - first) first w
  | true => w

/-- Dispatch `buffer_destroy_range`, with the destructor call `dtor`. -/
def buffer_destroy_range_with (dtor : Nat → World T → World T) (pod : Bool) (first last : Nat)
    (w : World T) : World T :=
  buffer_destroy_range_traits_with dtor first last pod w

/-- Overloads `buffer_move_urange_traits`, with the destructor call `dtor`. -/
def buffer_move_urange_traits_with (dtor : Nat → World T → World T) (dest first last : Nat)
    (pod : Bool) (w : World T) : Option (World T) :=
  if first ≤ last then
    match pod with
    | false =>
      some (buffer_destroy_range_with dtor false first last
        (loop_up2 move_construct (last - first) dest first w))
    | true => some (loop_up2 assign_from (last - first) dest first w)
  else none

/-- Overloads `buffer_bmove_urange_traits`, with the destructor call `dtor`. -/
def buffer_bmove_urange_traits_with (dtor : Nat → World T → World T) (dest first last : Nat)
    (pod : Bool) (w : World T) : Option (World T) :=
  if first ≤ last then
    match pod with
    | false =>
      some (loop_down2
        (fun d s w1 => buffer_destroy_range_with dtor false s (s + 1) (move_construct d s w1))
        (last - first) (dest + (last - first)) last w)
    | true => some (loop_down2 assign_from (last - first) (dest + (last - first)) last w)
  else none

/-- Dispatch `buffer_move_urange`, with the destructor call `dtor`. -/
def buffer_move_urange_with (dtor : Nat → World T → World T) (pod : Bool)
    (dest first last : Nat) (w : World T) : Option (World T) :=
  buffer_move_urange_traits_with dtor dest first last pod w

/-- Dispatch `buffer_bmove_urange`, with the destructor call `dtor`. -/
def buffer_bmove_urange_with (dtor : Nat → World T → World T) (pod : Bool)
    (dest first last : Nat) (w : World T) : Option (World T) :=
  buffer_bmove_urange_traits_with dtor dest first last pod w

/-- The function `buffer_reserve`, with the destructor call `dtor`. -/
def buffer_reserve_with (dtor : Nat → World T → World T) (cfg : Cfg) (capacity : Nat)
    (w : World T) (b : buffer) : Outcome T :=
  if cfg.ptr_add b.first capacity ≤ b.capacity then
    Outcome.done w b
  else
    let size := b.last - b.first
    match cfg.static_allocate w.log (cfg.to_size (cfg.sizeofT * capacity)) with
    | none =>
      Outcome.bad_alloc
        (w.note (Event.allocate (cfg.to_size (cfg.sizeofT * capacity)) none)) b
    | some newfirst =>
      let w1 := w.note (Event.allocate (cfg.to_size (cfg.sizeofT * capacity)) (some newfirst))
      match buffer_move_urange_with dtor cfg.pod newfirst b.first b.last w1 with
      | none => Outcome.diverges
      | some w2 =>
        let w3 := w2.note (Event.deallocate b.first (cfg.to_size (cfg.sizeofT * capacity)))
        Outcome.done w3
          { first := newfirst, last := cfg.ptr_add newfirst size,
            capacity := cfg.ptr_add newfirst capacity }

/-- The function `buffer_resize`, with the destructor call `dtor`. -/
def buffer_resize_with (dtor : Nat → World T → World T) (cfg : Cfg) (size : Nat)
    (value : Nat) (w : World T) (b : buffer) : Outcome T :=
  match buffer_reserve_with dtor cfg size w b with
  | Outcome.done w1 b1 =>
    let w2 := buffer_fill_urange cfg.pod b1.last (cfg.ptr_add b1.first size) value w1
    let w3 := buffer_destroy_range_with dtor cfg.pod (cfg.ptr_add b1.first size) b1.last w2
    Outcome.done w3 { b1 with last := cfg.ptr_add b1.first size }
  | r => r

/-- The part of `buffer_insert` after the reservation, with the destructor
call `dtor`. -/
def insert_finish_with (dtor : Nat → World T → World T) (cfg : Cfg)
    (offset newsize sfirst slast : Nat) (w1 : World T) (b1 : buffer) : Outcome T :=
  let pos1 := cfg.ptr_add b1.first offset
  let count := slast - sfirst
  let moved :=
    if pos1 ≠ b1.last then
      buffer_bmove_urange_with dtor cfg.pod (cfg.ptr_add pos1 count) pos1 b1.last w1
    else some w1
  match moved with
  | none => Outcome.diverges
  | some w2 =>
    if sfirst ≤ slast then
      Outcome.done (loop_up2 copy_construct count pos1 sfirst w2)
        { b1 with last := cfg.ptr_add b1.first newsize }
    else Outcome.diverges

/-- The function `buffer_insert`, with the destructor call `dtor`. -/
def buffer_insert_with (dtor : Nat → World T → World T) (cfg : Cfg) (pos sfirst slast : Nat)
    (w : World T) (b : buffer) : Outcome T :=
  let offset := pos - b.first
  let newsize := cfg.to_size ((b.last - b.first) + (slast - sfirst))
  let r :=
    if cfg.ptr_add b.first newsize > b.capacity then
      buffer_reserve_with dtor cfg (cfg.to_size (newsize * 3) / 2) w b
    else Outcome.done w b
  match r with
  | Outcome.done w1 b1 =>
    let pos1 := cfg.ptr_add b1.first offset
    let count := slast - sfirst
    let moved :=
      if pos1 ≠ b1.last then
        buffer_bmove_urange_with dtor cfg.pod (cfg.ptr_add pos1 count) pos1 b1.last w1
      else some w1
    match moved with
    | none => Outcome.diverges
    | some w2 =>
      if sfirst ≤ slast then
        Outcome.done (loop_up2 copy_construct count pos1 sfirst w2)
          { b1 with last := cfg.ptr_add b1.first newsize }
      else Outcome.diverges
  | r1 => r1

/-- The function `buffer_erase`, with the destructor call `dtor`. -/
def buffer_erase_with (dtor : Nat → World T → World T) (cfg : Cfg) (first last : Nat)
    (w : World T) (b : buffer) : Option (World T × buffer × Nat) :=
  if last ≤ b.last then
    let w1 := loop_up2 move (b.last - last) first last w
    let newlast := if first ≤ last then b.last - (last - first) else b.last + (first - last)
    let w2 := buffer_destroy_range_with dtor cfg.pod newlast b.last w1
    some (w2, { b with last := newlast }, first)
  else none

/-- Two outcomes end the same way with the same cursors and the same slots
(so with the same contents, size and capacity); the logs of calls may differ. -/
def Outcome.agree : Outcome T → Outcome T → Prop
  | Outcome.done w b, Outcome.done w2 b2 => b = b2 ∧ w.mem = w2.mem
  | Outcome.bad_alloc w b, Outcome.bad_alloc w2 b2 => b = b2 ∧ w.mem = w2.mem
  | Outcome.diverges, Outcome.diverges => True
  | _, _ => False

/-- Two range operations end the same way with the same slots. -/
def same_slots : Option (World T) → Option (World T) → Prop
  | some w, some w2 => w.mem = w2.mem
  | none, none => True
  | _, _ => False

/-- Two erasures end the same way with the same cursors, the same returned
cursor and the same slots. -/
def erase_agree : Option (World T × buffer × Nat) → Option (World T × buffer × Nat) → Prop
  | some (w, b, r), some (w2, b2, r2) => b = b2 ∧ r = r2 ∧ w.mem = w2.mem
  | none, none => True
  | _, _ => False

/-! ## Slot lifetimes -/

/-- A slot is live when it holds an object. -/
def World.live (w : World T) (a : Nat) : Bool := (w.mem a).isSome

/-- Replay of a log on the set of live slots: a constructor call needs a slot
that is not live and makes it live, a destructor call needs a live slot and
makes it raw; `none` reports that some call broke this.  Assignments and
allocator calls change no lifetime. -/
def lifetime_replay (live : Nat → Bool) : List Event → Option (Nat → Bool)
  | [] => some live
  | Event.construct p :: es =>
    if live p then none else lifetime_replay (fun a => if a = p then true else live a) es
  | Event.destroy p :: es =>
    if live p then lifetime_replay (fun a => if a = p then false else live a) es else none
  | _ :: es => lifetime_replay live es

/-- Exactly the slots of `[first, last)` are live and every slot of
`[last, capacity)` is raw. -/
def buffer.lifetimes_ok (b : buffer) (w : World T) : Bool :=
  (List.range (b.last - b.first)).all (fun i => w.live (b.first + i)) &&
  (List.range (b.capacity - b.last)).all (fun i => !w.live (b.last + i))

/-- The size `newsize` that `buffer_insert` computes for `m` new elements:
`(size_t)((b->last - b->first) + m)`. -/
def insert_newsize (cfg : Cfg) (b : buffer) (m : Nat) : Nat :=
  cfg.to_size ((b.last - b.first) + m)

/-- The capacity `buffer_insert` asks `buffer_reserve` for: `(newsize * 3) / 2`
as a `size_t` result. -/
def insert_request (cfg : Cfg) (b : buffer) (m : Nat) : Nat :=
  cfg.to_size (insert_newsize cfg b m * 3) / 2

/-- One-byte elements on a target with a 32-bit `size_t`. -/
def byte32_cfg (pod : Bool) : Cfg :=
  { pod := pod, sizeofT := 1, size_bits := 32, static_allocate := alloc_at 0x60000000 }

/-- A full buffer of `0x55555555` elements from slot 16 on. -/
def huge_buffer : buffer :=
  { first := 16, last := 16 + 0x55555555, capacity := 16 + 0x55555555 }

/-- Every slot of `huge_buffer` holds 0, and slot 8 holds 7. -/
def huge_world : World Nat :=
  { mem := fun a =>
      if 16 ≤ a ∧ a < 16 + 0x55555555 then some 0 else if a = 8 then some 7 else none,
    log := [] }

/-! # Theorems -/

/-! ## Basic facts about slots and the log -/

@[simp] theorem World.put_mem (w : World T) (p : Nat) (s : Option T) (e : Event) (a : Nat) :
    (w.put p s e).mem a = if a = p then s else w.mem a := rfl

@[simp] theorem World.put_log (w : World T) (p : Nat) (s : Option T) (e : Event) :
    (w.put p s e).log = w.log ++ [e] := rfl

@[simp] theorem World.note_mem (w : World T) (e : Event) : (w.note e).mem = w.mem := rfl

@[simp] theorem World.note_log (w : World T) (e : Event) : (w.note e).log = w.log ++ [e] := rfl

theorem World.slots_congr (w w' : World T) (p p' n : Nat)
    (h : ∀ i, i < n → w.mem (p + i) = w'.mem (p' + i)) : w.slots p n = w'.slots p' n := by
  unfold World.slots
  apply List.map_congr_left
  intro i hi
  exact h i (List.mem_range.mp hi)

@[simp] theorem World.slots_length (w : World T) (p n : Nat) : (w.slots p n).length = n := by
  simp [World.slots]

theorem World.slots_getElem? (w : World T) (p n i : Nat) (h : i < n) :
    (w.slots p n)[i]? = some (w.mem (p + i)) := by
  simp [World.slots, List.getElem?_map, List.getElem?_range h]

/-- A slot list is determined by its length and its entries. -/
theorem World.slots_eq_of_get (w : World T) (p n : Nat) (l : List (Option T)) (hl : l.length = n)
    (h : ∀ i, i < n → l[i]? = some (w.mem (p + i))) : w.slots p n = l := by
  apply List.ext_getElem?
  intro i
  by_cases hi : i < n
  · rw [World.slots_getElem? w p n i hi, h i hi]
  · have h1 : (w.slots p n).length ≤ i := by simp; omega
    have h2 : l.length ≤ i := by omega
    rw [List.getElem?_eq_none h1, List.getElem?_eq_none h2]

theorem World.slots_append (w : World T) (p n m : Nat) :
    w.slots p (n + m) = w.slots p n ++ w.slots (p + n) m := by
  apply World.slots_eq_of_get
  · simp
  · intro i hi
    by_cases h : i < n
    · rw [List.getElem?_append_left (by simpa using h), World.slots_getElem? w p n i h]
    · rw [List.getElem?_append_right (by simpa using h)]
      simp only [World.slots_length]
      rw [World.slots_getElem? w (p + n) m (i - n) (by omega)]
      congr 2; omega

theorem World.slots_take (w : World T) (p n k : Nat) (h : k ≤ n) :
    (w.slots p n).take k = w.slots p k := by
  obtain ⟨m, rfl⟩ := Nat.exists_eq_add_of_le h
  rw [World.slots_append, List.take_left' (by simp)]

theorem World.slots_drop (w : World T) (p n k : Nat) (h : k ≤ n) :
    (w.slots p n).drop k = w.slots (p + k) (n - k) := by
  obtain ⟨m, rfl⟩ := Nat.exists_eq_add_of_le h
  rw [World.slots_append, List.drop_left' (by simp)]
  simp

/-! ## The loops -/

theorem loop_up1_mem (body : Nat → World T → World T) (s : Option T) (ev : Nat → Event)
    (hb : ∀ q w, body q w = w.put q s (ev q)) (n p : Nat) (w : World T) (a : Nat) :
    (loop_up1 body n p w).mem a = if p ≤ a ∧ a < p + n then s else w.mem a := by
  induction n generalizing p w with
  | zero =>
    have h : ¬ (p ≤ a ∧ a < p + 0) := by omega
    rw [if_neg h]; rfl
  | succ n ih =>
    simp only [loop_up1, ih, hb, World.put_mem]
    by_cases h1 : a = p
    · subst h1; simp
    · by_cases h2 : p + 1 ≤ a ∧ a < p + 1 + n
      · have h3 : p ≤ a ∧ a < p + (n + 1) := by omega
        simp [h2, h3]
      · have h3 : ¬ (p ≤ a ∧ a < p + (n + 1)) := by omega
        simp [h1, h2, h3]

theorem loop_up1_log (body : Nat → World T → World T) (s : Option T) (ev : Nat → Event)
    (hb : ∀ q w, body q w = w.put q s (ev q)) (n p : Nat) (w : World T) :
    (loop_up1 body n p w).log = w.log ++ (List.range n).map (fun i => ev (p + i)) := by
  induction n generalizing p w with
  | zero => simp [loop_up1]
  | succ n ih =>
    simp only [loop_up1, ih, hb, World.put_log, List.range_succ_eq_map, List.map_cons,
      List.map_map, List.append_assoc, List.singleton_append, Nat.add_zero]
    congr 2
    apply List.map_congr_left
    intro i _
    simp only [Function.comp]
    congr 1; omega

/-- A forward copy loop over `n` slots when the destination does not start
inside the source range above its first slot. -/
theorem loop_up2_mem (body : Nat → Nat → World T → World T) (ev : Nat → Event)
    (hb : ∀ d s w, body d s w = w.put d (w.mem s) (ev d)) (n dest src : Nat) (w : World T)
    (hov : dest ≤ src ∨ src + n ≤ dest) (a : Nat) :
    (loop_up2 body n dest src w).mem a =
      if dest ≤ a ∧ a < dest + n then w.mem (src + (a - dest)) else w.mem a := by
  induction n generalizing dest src w with
  | zero =>
    have h : ¬ (dest ≤ a ∧ a < dest + 0) := by omega
    rw [if_neg h]; rfl
  | succ n ih =>
    simp only [loop_up2]
    rw [ih (dest + 1) (src + 1) _ (by omega)]
    simp only [hb, World.put_mem]
    by_cases h2 : dest + 1 ≤ a ∧ a < dest + 1 + n
    · have h3 : dest ≤ a ∧ a < dest + (n + 1) := by omega
      have h4 : src + (a - dest) ≠ dest := by omega
      have h5 : src + 1 + (a - (dest + 1)) = src + (a - dest) := by omega
      rw [if_pos h2, if_pos h3, h5, if_neg h4]
    · by_cases h1 : a = dest
      · subst h1; simp
      · have h3 : ¬ (dest ≤ a ∧ a < dest + (n + 1)) := by omega
        simp [h1, h2, h3]

theorem loop_up2_log (body : Nat → Nat → World T → World T) (ev : Nat → Event)
    (hb : ∀ d s w, body d s w = w.put d (w.mem s) (ev d)) (n dest src : Nat) (w : World T) :
    (loop_up2 body n dest src w).log = w.log ++ (List.range n).map (fun i => ev (dest + i)) := by
  induction n generalizing dest src w with
  | zero => simp [loop_up2]
  | succ n ih =>
    simp only [loop_up2, ih, hb, World.put_log, List.range_succ_eq_map, List.map_cons,
      List.map_map, List.append_assoc, List.singleton_append, Nat.add_zero]
    congr 2
    apply List.map_congr_left
    intro i _
    simp only [Function.comp]
    congr 1; omega

/-! ## The log, filtered -/

theorem filter_alloc_map (ev : Nat → Event) (h : ∀ i, (ev i).isAllocatorCall = false)
    (l : List Nat) : (l.map ev).filter Event.isAllocatorCall = [] := by
  rw [List.filter_eq_nil_iff]
  intro e he
  obtain ⟨i, _, rfl⟩ := List.mem_map.mp he
  simp [h i]

theorem filter_elem_map (ev : Nat → Event) (h : ∀ i, (ev i).isElementOp = true)
    (l : List Nat) : (l.map ev).filter Event.isElementOp = l.map ev := by
  rw [List.filter_eq_self]
  intro e he
  obtain ⟨i, _, rfl⟩ := List.mem_map.mp he
  exact h i

theorem move_events_no_alloc (pod : Bool) (dest first n : Nat) :
    (move_events pod dest first n).filter Event.isAllocatorCall = [] := by
  cases pod <;> simp [move_events, List.filter_append, filter_alloc_map, Event.isAllocatorCall]

/-- The forward move ends when `first <= last`, and logs `move_events`. -/
theorem buffer_move_urange_log (pod : Bool) (dest first last : Nat) (w : World T)
    (h : first ≤ last) :
    ∃ w2, buffer_move_urange pod dest first last w = some w2 ∧
      w2.log = w.log ++ move_events pod dest first (last - first) := by
  cases pod
  · simp only [buffer_move_urange, buffer_move_urange_traits, h, if_true]
    refine ⟨_, rfl, ?_⟩
    simp only [buffer_destroy_range, buffer_destroy_range_traits, move_events]
    rw [loop_up1_log destroy_at none Event.destroy (fun _ _ => rfl),
      loop_up2_log move_construct Event.construct (fun _ _ _ => rfl)]
    simp
  · simp only [buffer_move_urange, buffer_move_urange_traits, h, if_true]
    refine ⟨_, rfl, ?_⟩
    simp only [move_events]
    rw [loop_up2_log assign_from Event.assign (fun _ _ _ => rfl)]

/-- The forward move into a range that does not overlap the source: the
destination receives the source slots; the complex variant leaves the source
slots raw, the plain variant leaves them as they are. -/
theorem buffer_move_urange_mem (pod : Bool) (dest first last : Nat) (w w2 : World T)
    (h : first ≤ last) (hd : dest + (last - first) ≤ first ∨ last ≤ dest)
    (hw : buffer_move_urange pod dest first last w = some w2) (a : Nat) :
    w2.mem a =
      if dest ≤ a ∧ a < dest + (last - first) then w.mem (first + (a - dest))
      else if pod = false ∧ first ≤ a ∧ a < last then none else w.mem a := by
  have hov : dest ≤ first ∨ first + (last - first) ≤ dest := by omega
  cases pod
  · simp only [buffer_move_urange, buffer_move_urange_traits, h, if_true, Option.some.injEq,
      buffer_destroy_range, buffer_destroy_range_traits] at hw
    subst hw
    rw [loop_up1_mem destroy_at none Event.destroy (fun _ _ => rfl),
      loop_up2_mem move_construct Event.construct (fun _ _ _ => rfl) _ _ _ _ hov]
    by_cases h1 : dest ≤ a ∧ a < dest + (last - first)
    · have h2 : ¬ (first ≤ a ∧ a < first + (last - first)) := by omega
      rw [if_neg h2, if_pos h1, if_pos h1]
    · by_cases h2 : first ≤ a ∧ a < first + (last - first)
      · have h3 : first ≤ a ∧ a < last := by omega
        simp [h1, h2, h3]
      · have h3 : ¬ (first ≤ a ∧ a < last) := by omega
        simp [h1, h2, h3]
  · simp only [buffer_move_urange, buffer_move_urange_traits, h, if_true,
      Option.some.injEq] at hw
    subst hw
    rw [loop_up2_mem assign_from Event.assign (fun _ _ _ => rfl) _ _ _ _ hov]
    simp

/-! ## Machine arithmetic -/

theorem Cfg.to_size_of_lt (cfg : Cfg) (x : Nat) (h : x < 2 ^ cfg.size_bits) :
    cfg.to_size x = x :=
  Nat.mod_eq_of_lt h

theorem Cfg.to_size_le (cfg : Cfg) (x : Nat) : cfg.to_size x ≤ x :=
  Nat.mod_le _ _

theorem Cfg.in_range_mono (cfg : Cfg) (x y : Nat) (hxy : x ≤ y) (h : cfg.in_range y) :
    cfg.in_range x :=
  lt_of_le_of_lt (Nat.mul_le_mul_left _ hxy) h

/-- A count in range is below `2 ^ size_bits` itself. -/
theorem Cfg.lt_of_in_range (cfg : Cfg) (x : Nat) (hs : 0 < cfg.sizeofT) (h : cfg.in_range x) :
    x < 2 ^ cfg.size_bits :=
  lt_of_le_of_lt (Nat.le_mul_of_pos_left x hs) h

/-- A pointer sum that fits is the sum. -/
theorem Cfg.ptr_add_of_in_range (cfg : Cfg) (p n : Nat) (hs : 0 < cfg.sizeofT)
    (h : cfg.in_range (p + n)) : cfg.ptr_add p n = p + n := by
  unfold Cfg.in_range at h
  unfold Cfg.ptr_add Cfg.to_size
  rw [← Nat.mul_add, Nat.mod_eq_of_lt h, Nat.mul_div_cancel_left _ hs]

/-- The byte count `sizeof(T) * n` of a count in range, divided back. -/
theorem Cfg.bytes_of_in_range (cfg : Cfg) (n : Nat) (hs : 0 < cfg.sizeofT)
    (h : cfg.in_range n) :
    cfg.to_size (cfg.sizeofT * n) = cfg.sizeofT * n ∧
      cfg.to_size (cfg.sizeofT * n) / cfg.sizeofT = n := by
  have e : cfg.to_size (cfg.sizeofT * n) = cfg.sizeofT * n := Nat.mod_eq_of_lt h
  exact ⟨e, by rw [e, Nat.mul_div_cancel_left _ hs]⟩

/-- The pointer sum `p + n` when the block of `sizeof(T) * n` bytes (as a
`size_t` product) at `p` lies inside the address space: `p` plus the number of
whole elements in the block. -/
theorem Cfg.ptr_add_block (cfg : Cfg) (p n : Nat) (hs : 0 < cfg.sizeofT)
    (hfit : cfg.sizeofT * p + cfg.to_size (cfg.sizeofT * n) < 2 ^ cfg.size_bits) :
    cfg.ptr_add p n = p + cfg.to_size (cfg.sizeofT * n) / cfg.sizeofT := by
  unfold Cfg.ptr_add Cfg.to_size at *
  have hp : cfg.sizeofT * p < 2 ^ cfg.size_bits := by omega
  rw [Nat.add_mod, Nat.mod_eq_of_lt hp, Nat.mod_eq_of_lt hfit, Nat.mul_add_div hs]

/-- When the test `first + n <= capacity` of `buffer_reserve` fails, the block
requested holds more elements than the capacity, wrapped or not. -/
theorem Cfg.cap_lt_of_test_fails (cfg : Cfg) (first capacity n : Nat) (hs : 0 < cfg.sizeofT)
    (hfc : first ≤ capacity) (ht : ¬ cfg.ptr_add first n ≤ capacity) :
    capacity - first < cfg.to_size (cfg.sizeofT * n) / cfg.sizeofT := by
  by_contra hc
  apply ht
  have hB : cfg.to_size (cfg.sizeofT * n) <
      cfg.sizeofT * (capacity - first + 1) := by
    have := Nat.lt_mul_of_div_lt (Nat.lt_succ_of_le (Nat.le_of_not_lt hc)) hs
    simpa [Nat.mul_comm] using this
  have hsum : cfg.to_size (cfg.sizeofT * first + cfg.sizeofT * n) <
      cfg.sizeofT * (capacity + 1) := by
    have h1 : cfg.to_size (cfg.sizeofT * first + cfg.sizeofT * n) ≤
        cfg.sizeofT * first + cfg.to_size (cfg.sizeofT * n) := by
      unfold Cfg.to_size
      rw [Nat.add_mod]
      exact le_trans (Nat.mod_le _ _) (Nat.add_le_add_right (Nat.mod_le _ _) _)
    have h2 : cfg.sizeofT * first + cfg.sizeofT * (capacity - first + 1) =
        cfg.sizeofT * (capacity + 1) := by
      rw [← Nat.mul_add]; congr 1; omega
    omega
  unfold Cfg.ptr_add
  have h5 : cfg.to_size (cfg.sizeofT * first + cfg.sizeofT * n) <
      (capacity + 1) * cfg.sizeofT := by rw [Nat.mul_comm (capacity + 1)]; exact hsum
  have := (Nat.div_lt_iff_lt_mul hs).mpr h5
  omega

/-! ## reserve -/

/-- The path of `buffer_reserve` that returns at once. -/
theorem buffer_reserve_noop (cfg : Cfg) (n : Nat) (w : World T) (b : buffer)
    (h : cfg.ptr_add b.first n ≤ b.capacity) : buffer_reserve cfg n w b = Outcome.done w b := by
  simp only [buffer_reserve, h, if_true]

/-- The reallocating path of `buffer_reserve` with an allocator that succeeds
with a block inside the address space, whatever the request: the new capacity
is the number of whole elements in the block, which exceeds the old one. -/
theorem buffer_reserve_realloc (cfg : Cfg) (n nf : Nat) (w : World T) (b : buffer)
    (hs : 0 < cfg.sizeofT) (h1 : b.first ≤ b.last) (h2 : b.last ≤ b.capacity)
    (ht : ¬ cfg.ptr_add b.first n ≤ b.capacity)
    (ha : cfg.static_allocate w.log (cfg.to_size (cfg.sizeofT * n)) = some nf)
    (hfit : cfg.sizeofT * nf + cfg.to_size (cfg.sizeofT * n) < 2 ^ cfg.size_bits) :
    ∃ w2, buffer_reserve cfg n w b =
        Outcome.done w2
          { first := nf, last := nf + (b.last - b.first),
            capacity := nf + cfg.to_size (cfg.sizeofT * n) / cfg.sizeofT } ∧
      b.capacity - b.first < cfg.to_size (cfg.sizeofT * n) / cfg.sizeofT ∧
      w2.log = w.log ++ [Event.allocate (cfg.to_size (cfg.sizeofT * n)) (some nf)] ++
        move_events cfg.pod nf b.first (b.last - b.first) ++
        [Event.deallocate b.first (cfg.to_size (cfg.sizeofT * n))] ∧
      ((nf + (b.last - b.first) ≤ b.first ∨ b.last ≤ nf) → ∀ a, w2.mem a =
        if nf ≤ a ∧ a < nf + (b.last - b.first) then w.mem (b.first + (a - nf))
        else if cfg.pod = false ∧ b.first ≤ a ∧ a < b.last then none else w.mem a) := by
  obtain ⟨w1, hw1, hlog⟩ := buffer_move_urange_log cfg.pod nf b.first b.last
    (w.note (Event.allocate (cfg.to_size (cfg.sizeofT * n)) (some nf))) h1
  have hcap := Cfg.cap_lt_of_test_fails cfg b.first b.capacity n hs (by omega) ht
  have hlast : cfg.ptr_add nf (b.last - b.first) = nf + (b.last - b.first) := by
    apply Cfg.ptr_add_of_in_range cfg _ _ hs
    unfold Cfg.in_range
    have h3 : cfg.sizeofT * (b.last - b.first) ≤
        cfg.sizeofT * (cfg.to_size (cfg.sizeofT * n) / cfg.sizeofT) :=
      Nat.mul_le_mul_left _ (by omega)
    have h4 := Nat.mul_div_le (cfg.to_size (cfg.sizeofT * n)) cfg.sizeofT
    rw [Nat.mul_add]
    omega
  refine ⟨w1.note (Event.deallocate b.first (cfg.to_size (cfg.sizeofT * n))), ?_, hcap, ?_, ?_⟩
  · simp only [buffer_reserve, ht, if_false, ha, hw1, hlast, Cfg.ptr_add_block cfg nf n hs hfit]
  · simp [hlog]
  · intro hd a
    have := buffer_move_urange_mem cfg.pod nf b.first b.last _ w1 h1 hd hw1 a
    simpa using this

/-- The reallocating path for a request whose pointer sums do not wrap: it
keeps the live slots and the size and reaches the requested capacity, when the
new block is fresh. -/
theorem reserve_realloc_keeps_elems (cfg : Cfg) (n nf : Nat) (w : World T) (b : buffer)
    (hs : 0 < cfg.sizeofT) (hwf : b.wf) (hn : b.cap < n) (hrange : cfg.in_range (b.first + n))
    (ha : cfg.static_allocate w.log (cfg.sizeofT * n) = some nf)
    (hblock : cfg.in_range (nf + n))
    (hfresh : fresh_from nf n b.first b.capacity) :
    ∃ w2 b2, buffer_reserve cfg n w b = Outcome.done w2 b2 ∧
      b2 = { first := nf, last := nf + (b.last - b.first), capacity := nf + n } ∧
      b2.elems w2 = b.elems w ∧ b2.size = b.size ∧ n ≤ b2.cap ∧
      w2.log = w.log ++ [Event.allocate (cfg.sizeofT * n) (some nf)] ++
        move_events cfg.pod nf b.first (b.last - b.first) ++
        [Event.deallocate b.first (cfg.sizeofT * n)] ∧
      (∀ a, w2.mem a =
        if nf ≤ a ∧ a < nf + (b.last - b.first) then w.mem (b.first + (a - nf))
        else if cfg.pod = false ∧ b.first ≤ a ∧ a < b.last then none else w.mem a) := by
  obtain ⟨h1, h2⟩ := hwf
  unfold buffer.cap at hn
  unfold fresh_from at hfresh
  obtain ⟨hb1, hb2⟩ := Cfg.bytes_of_in_range cfg n hs
    (Cfg.in_range_mono cfg n (b.first + n) (by omega) hrange)
  have ht : ¬ cfg.ptr_add b.first n ≤ b.capacity := by
    rw [Cfg.ptr_add_of_in_range cfg _ _ hs hrange]; omega
  have hfit : cfg.sizeofT * nf + cfg.to_size (cfg.sizeofT * n) < 2 ^ cfg.size_bits := by
    rw [hb1, ← Nat.mul_add]; exact hblock
  obtain ⟨w2, hw2, _, hlog, hmem⟩ :=
    buffer_reserve_realloc cfg n nf w b hs h1 h2 ht (by rw [hb1]; exact ha) hfit
  rw [hb2] at hw2
  rw [hb1] at hlog
  have hmem2 := hmem (by omega)
  have he : ({ first := nf, last := nf + (b.last - b.first), capacity := nf + n } : buffer).elems w2
      = b.elems w := by
    simp only [buffer.elems, Nat.add_sub_cancel_left]
    apply World.slots_congr
    intro i hi
    rw [hmem2 (nf + i), if_pos (by omega)]
    congr 2; omega
  refine ⟨w2, _, hw2, rfl, he, ?_, ?_, hlog, hmem2⟩
  · simp [buffer.size]
  · simp [buffer.cap]

/-- C3 (as amended): for a well-formed buffer holding `xs` and a request `n`
above the capacity whose pointer sum `first + n` does not wrap,
`buffer_reserve` with an allocator that succeeds with a fresh block inside the
address space returns a buffer that holds `xs` in the same order, has the same
size, and has capacity at least `n`. -/
theorem reserve_growth_preserves_content (cfg : Cfg) (n nf : Nat) (w : World T) (b : buffer)
    (xs : List T) (hs : 0 < cfg.sizeofT) (hwf : b.wf) (hxs : b.holds w xs) (hn : b.cap < n)
    (hrange : cfg.in_range (b.first + n))
    (ha : cfg.static_allocate w.log (cfg.sizeofT * n) = some nf)
    (hblock : cfg.in_range (nf + n))
    (hfresh : fresh_from nf n b.first b.capacity) :
    ∃ w2 b2, buffer_reserve cfg n w b = Outcome.done w2 b2 ∧
      b2.holds w2 xs ∧ b2.elems w2 = b.elems w ∧ b2.size = b.size ∧ n ≤ b2.cap := by
  obtain ⟨w2, b2, hr, _, he, hsz, hc, _⟩ :=
    reserve_realloc_keeps_elems cfg n nf w b hs hwf hn hrange ha hblock hfresh
  refine ⟨w2, b2, hr, ?_, he, hsz, hc⟩
  unfold buffer.holds; rw [he]; exact hxs

/-- Witness for C3: the full sample buffer reserved to 5 slots. -/
theorem reserve_growth_preserves_content_witness :
    0 < complex_cfg.sizeofT ∧ sample_buffer.wf ∧ sample_buffer.holds sample_world [1, 2, 3] ∧
    sample_buffer.cap < 5 ∧ complex_cfg.in_range (sample_buffer.first + 5) ∧
    complex_cfg.in_range (100 + 5) ∧
    fresh_from 100 5 sample_buffer.first sample_buffer.capacity ∧
    ∃ w2 b2, buffer_reserve complex_cfg 5 sample_world sample_buffer = Outcome.done w2 b2 ∧
      b2.holds w2 [1, 2, 3] ∧ b2.elems w2 = sample_buffer.elems sample_world ∧
      b2.size = sample_buffer.size ∧ 5 ≤ b2.cap :=
  ⟨by decide, by decide, by decide, by decide, by decide, by decide, by decide,
    reserve_growth_preserves_content complex_cfg 5 100 sample_world sample_buffer [1, 2, 3]
      (by decide) (by decide) (by decide) (by decide) (by decide) rfl (by decide) (by decide)⟩

/-- C3 (counterexample): on the full sample buffer of capacity 3 with four-byte
elements and a 64-bit `size_t`, `buffer_reserve(2 ^ 62 + 5)` finds
`first + n` wrapped to slot 15, requests `4 * n mod 2 ^ 64 = 20` bytes, gets the
fresh block at 100 and returns holding `[1, 2, 3]` with capacity 5, which is
below the request. -/
theorem reserve_wrapped_request_falls_short :
    sample_buffer.wf ∧ sample_buffer.holds sample_world [1, 2, 3] ∧
    sample_buffer.cap < 2 ^ 62 + 5 ∧
    ∃ w2 b2, buffer_reserve complex_cfg (2 ^ 62 + 5) sample_world sample_buffer =
        Outcome.done w2 b2 ∧
      w2.allocCalls = [Event.allocate 20 (some 100), Event.deallocate 10 20] ∧
      fresh_from 100 5 sample_buffer.first sample_buffer.capacity ∧
      b2.holds w2 [1, 2, 3] ∧ b2.cap = 5 ∧ ¬ (2 ^ 62 + 5 ≤ b2.cap) :=
  ⟨by decide, by decide, by decide, _, _, rfl, by decide, by decide, by decide, by decide,
    by decide⟩

/-- C4 (as amended): for a buffer with `first <= capacity` and every `n` whose
pointer sum `first + n` does not wrap, the code's test `first + n <= capacity`
agrees with the size-based test of the spec, and `buffer_reserve(n)` makes no
allocator call and leaves the three cursors and every slot unchanged exactly
when `n` is at most the capacity in elements. -/
theorem reserve_noop_iff_within_capacity (cfg : Cfg) (n : Nat) (w : World T) (b : buffer)
    (hs : 0 < cfg.sizeofT) (hwf : b.first ≤ b.capacity) (hrange : cfg.in_range (b.first + n)) :
    (decide (cfg.ptr_add b.first n ≤ b.capacity) = reserve_is_noop_spec b n) ∧
    ((∃ w2 b2, buffer_reserve cfg n w b = Outcome.done w2 b2 ∧
        w2.allocCalls = w.allocCalls ∧ b2 = b ∧ w2.mem = w.mem) ↔ n ≤ b.cap) := by
  have hp := Cfg.ptr_add_of_in_range cfg _ _ hs hrange
  constructor
  · unfold reserve_is_noop_spec
    rw [decide_eq_decide, hp]; omega
  · unfold buffer.cap
    constructor
    · rintro ⟨w2, b2, hr, hcalls, _, _⟩
      by_contra hn
      have hlt : ¬ (cfg.ptr_add b.first n ≤ b.capacity) := by rw [hp]; omega
      simp only [buffer_reserve, hlt, if_false] at hr
      cases ha : cfg.static_allocate w.log (cfg.to_size (cfg.sizeofT * n)) with
      | none => simp [ha] at hr
      | some nf =>
        simp only [ha] at hr
        cases hm : buffer_move_urange cfg.pod nf b.first b.last
            (w.note (Event.allocate (cfg.to_size (cfg.sizeofT * n)) (some nf))) with
        | none => simp [hm] at hr
        | some w1 =>
          simp only [hm, Outcome.done.injEq] at hr
          obtain ⟨hw, _⟩ := hr
          have hfl : b.first ≤ b.last := by
            by_contra hc
            simp [buffer_move_urange, buffer_move_urange_traits, hc] at hm
          obtain ⟨w1b, hw1b, hlog⟩ := buffer_move_urange_log cfg.pod nf b.first b.last
            (w.note (Event.allocate (cfg.to_size (cfg.sizeofT * n)) (some nf))) hfl
          rw [hm] at hw1b
          cases hw1b
          have hlen := congrArg List.length hcalls
          rw [← hw] at hlen
          simp [World.allocCalls, hlog, List.filter_append, move_events_no_alloc,
            Event.isAllocatorCall] at hlen
    · intro hn
      exact ⟨w, b, buffer_reserve_noop cfg n w b (by rw [hp]; omega), rfl, rfl, rfl⟩

/-- Witness for C4: reserving 4 slots in a buffer of capacity 5. -/
theorem reserve_noop_iff_within_capacity_witness :
    0 < complex_cfg.sizeofT ∧ roomy_buffer.first ≤ roomy_buffer.capacity ∧
    complex_cfg.in_range (roomy_buffer.first + 4) ∧
    (decide (complex_cfg.ptr_add roomy_buffer.first 4 ≤ roomy_buffer.capacity) =
      reserve_is_noop_spec roomy_buffer 4) ∧
    ((∃ w2 b2, buffer_reserve complex_cfg 4 sample_world roomy_buffer = Outcome.done w2 b2 ∧
        w2.allocCalls = sample_world.allocCalls ∧ b2 = roomy_buffer ∧ w2.mem = sample_world.mem)
      ↔ 4 ≤ roomy_buffer.cap) :=
  ⟨by decide, by decide, by decide,
    reserve_noop_iff_within_capacity complex_cfg 4 sample_world roomy_buffer
      (by decide) (by decide) (by decide)⟩

/-- C4 (counterexample): with four-byte elements and a 64-bit `size_t` the
pointer sum `first + 2 ^ 62` wraps back to `first`, so on the sample buffer of
capacity 3 `buffer_reserve(2 ^ 62)` passes the code's test and returns at once
with no allocator call and nothing changed, although the request is far above
the capacity. -/
theorem reserve_wrapped_request_is_noop :
    sample_buffer.first ≤ sample_buffer.capacity ∧
    complex_cfg.ptr_add sample_buffer.first (2 ^ 62) = sample_buffer.first ∧
    decide (complex_cfg.ptr_add sample_buffer.first (2 ^ 62) ≤ sample_buffer.capacity) ≠
      reserve_is_noop_spec sample_buffer (2 ^ 62) ∧
    (∃ w2 b2, buffer_reserve complex_cfg (2 ^ 62) sample_world sample_buffer =
        Outcome.done w2 b2 ∧
      w2.allocCalls = sample_world.allocCalls ∧ b2 = sample_buffer ∧
      w2.mem = sample_world.mem) ∧
    ¬ (2 ^ 62 ≤ sample_buffer.cap) :=
  ⟨by decide, by decide, by decide, ⟨_, _, rfl, rfl, rfl, rfl⟩, by decide⟩

/-- Over an empty range the fill loop does nothing. -/
theorem buffer_fill_urange_empty (pod : Bool) (first last : Nat) (value : Nat) (w : World T)
    (h : last ≤ first) : buffer_fill_urange pod first last value w = w := by
  have e : last - first = 0 := by omega
  cases pod <;> simp [buffer_fill_urange, buffer_fill_urange_traits, e, loop_up1]

theorem buffer_destroy_range_log (pod : Bool) (first last : Nat) (w : World T) :
    (buffer_destroy_range pod first last w).log =
      w.log ++ destroy_events pod first (last - first) := by
  cases pod
  · simp only [buffer_destroy_range, buffer_destroy_range_traits, destroy_events]
    rw [loop_up1_log destroy_at none Event.destroy (fun _ _ => rfl)]
  · simp [buffer_destroy_range, buffer_destroy_range_traits, destroy_events]

theorem buffer_destroy_range_mem (pod : Bool) (first last : Nat) (w : World T) (a : Nat) :
    (buffer_destroy_range pod first last w).mem a =
      if pod = false ∧ first ≤ a ∧ a < last then none else w.mem a := by
  cases pod
  · simp only [buffer_destroy_range, buffer_destroy_range_traits]
    rw [loop_up1_mem destroy_at none Event.destroy (fun _ _ => rfl)]
    have e : (first ≤ a ∧ a < first + (last - first)) ↔ (first ≤ a ∧ a < last) := by omega
    simp [e]
  · simp [buffer_destroy_range, buffer_destroy_range_traits]

theorem destroy_events_no_alloc (pod : Bool) (first n : Nat) :
    (destroy_events pod first n).filter Event.isAllocatorCall = [] := by
  cases pod <;> simp [destroy_events, filter_alloc_map, Event.isAllocatorCall]

/-- C6: for a well-formed buffer holding `xs` whose cursors are addresses in
range and every `k` below its size, `buffer_resize(k, value)` returns a buffer
of size `k` holding the first `k` elements of `xs`; the only calls made are
the destructor calls of the destroy-range over the slots `k` to `size - 1`
(one per slot for a complex type, none for a plain one), no slot outside them
changes, and the outcome is the same for every fill value. -/
theorem resize_shrink_truncates (cfg : Cfg) (k value : Nat) (w : World T) (b : buffer)
    (xs : List T) (hs : 0 < cfg.sizeofT) (hcap : cfg.in_range b.capacity) (hwf : b.wf)
    (hxs : b.holds w xs) (hk : k < b.size) :
    ∃ w2 b2, buffer_resize cfg k value w b = Outcome.done w2 b2 ∧ b2.size = k ∧
      b2.holds w2 (xs.take k) ∧
      w2.log = w.log ++ destroy_events cfg.pod (b.first + k) (b.size - k) ∧
      (∀ a, w2.mem a = if cfg.pod = false ∧ b.first + k ≤ a ∧ a < b.last then none else w.mem a) ∧
      (∀ value2, buffer_resize cfg k value2 w b = buffer_resize cfg k value w b) := by
  obtain ⟨h1, h2⟩ := hwf
  unfold buffer.size at hk
  have hp : cfg.ptr_add b.first k = b.first + k :=
    Cfg.ptr_add_of_in_range cfg _ _ hs (Cfg.in_range_mono cfg _ _ (by omega) hcap)
  have hr : buffer_reserve cfg k w b = Outcome.done w b :=
    buffer_reserve_noop cfg k w b (by rw [hp]; omega)
  have hres : ∀ value2, buffer_resize cfg k value2 w b = Outcome.done
      (buffer_destroy_range cfg.pod (b.first + k) b.last w) { b with last := b.first + k } := by
    intro value2
    simp only [buffer_resize, hr, hp]
    rw [buffer_fill_urange_empty _ _ _ _ _ (by omega)]
  refine ⟨_, _, hres value, ?_, ?_, ?_, ?_, ?_⟩
  · simp [buffer.size]
  · unfold buffer.holds buffer.elems
    simp only [Nat.add_sub_cancel_left]
    rw [List.map_take, ← hxs]
    unfold buffer.elems
    rw [World.slots_take _ _ _ _ (by omega)]
    apply World.slots_congr
    intro i hi
    rw [buffer_destroy_range_mem, if_neg (by omega)]
  · rw [buffer_destroy_range_log]
    congr 2
    unfold buffer.size; omega
  · intro a
    rw [buffer_destroy_range_mem]
  · intro value2
    rw [hres value2, hres value]

/-- Witness for C6: the sample buffer resized from 3 to 1. -/
theorem resize_shrink_truncates_witness :
    0 < complex_cfg.sizeofT ∧ complex_cfg.in_range sample_buffer.capacity ∧
    sample_buffer.wf ∧ sample_buffer.holds sample_world [1, 2, 3] ∧ 1 < sample_buffer.size ∧
    ∃ w2 b2, buffer_resize complex_cfg 1 20 sample_world sample_buffer = Outcome.done w2 b2 ∧
      b2.size = 1 ∧ b2.holds w2 ([1, 2, 3].take 1) ∧
      w2.log = sample_world.log ++
        destroy_events complex_cfg.pod (sample_buffer.first + 1) (sample_buffer.size - 1) ∧
      (∀ a, w2.mem a = if complex_cfg.pod = false ∧ sample_buffer.first + 1 ≤ a ∧
        a < sample_buffer.last then none else sample_world.mem a) ∧
      (∀ value2, buffer_resize complex_cfg 1 value2 sample_world sample_buffer =
        buffer_resize complex_cfg 1 20 sample_world sample_buffer) :=
  ⟨by decide, by decide, by decide, by decide, by decide,
    resize_shrink_truncates complex_cfg 1 20 sample_world sample_buffer [1, 2, 3]
      (by decide) (by decide) (by decide) (by decide) (by decide)⟩

/-! ## erase -/

/-- C2: for a well-formed buffer holding `xs` and every `i <= j <= size`,
`buffer_erase` of the cursors at offsets `i` and `j` returns; the buffer then
has size `size - (j - i)` and holds `xs` without the entries `i` to `j - 1`,
`first` and `capacity` are unchanged, no allocator call was made, and the
returned cursor is the one at offset `i`, which is the new `last` when
`j = size`. -/
theorem erase_removes_range (cfg : Cfg) (i j : Nat) (w : World T) (b : buffer) (xs : List T)
    (hwf : b.wf) (hxs : b.holds w xs) (hij : i ≤ j) (hj : j ≤ b.size) :
    ∃ w2 b2 ret, buffer_erase cfg (b.first + i) (b.first + j) w b = some (w2, b2, ret) ∧
      b2.size = b.size - (j - i) ∧ b2.holds w2 (xs.take i ++ xs.drop j) ∧
      b2.first = b.first ∧ b2.capacity = b.capacity ∧ b2.cap = b.cap ∧
      w2.allocCalls = w.allocCalls ∧
      ret = b.first + i ∧ (j = b.size → ret = b2.last) := by
  obtain ⟨h1, h2⟩ := hwf
  unfold buffer.size at hj
  have hle : b.first + j ≤ b.last := by omega
  have hfl : b.first + i ≤ b.first + j := by omega
  have hnl : b.last - (b.first + j - (b.first + i)) = b.first + i + (b.last - (b.first + j)) := by
    omega
  have hres : buffer_erase cfg (b.first + i) (b.first + j) w b = some
      (buffer_destroy_range cfg.pod (b.first + i + (b.last - (b.first + j))) b.last
        (loop_up2 move (b.last - (b.first + j)) (b.first + i) (b.first + j) w),
       { b with last := b.first + i + (b.last - (b.first + j)) }, b.first + i) := by
    simp only [buffer_erase, hle, hfl, if_true, hnl]
  have hmem : ∀ a, a < b.first + i + (b.last - (b.first + j)) →
      (buffer_destroy_range cfg.pod (b.first + i + (b.last - (b.first + j))) b.last
        (loop_up2 move (b.last - (b.first + j)) (b.first + i) (b.first + j) w)).mem a =
      if b.first + i ≤ a then w.mem (b.first + j + (a - (b.first + i))) else w.mem a := by
    intro a ha
    rw [buffer_destroy_range_mem, if_neg (by omega),
      loop_up2_mem move Event.assign (fun _ _ _ => rfl) _ _ _ _ (by omega)]
    by_cases hc : b.first + i ≤ a
    · rw [if_pos ⟨hc, by omega⟩, if_pos hc]
    · rw [if_neg (by omega), if_neg hc]
  refine ⟨_, _, _, hres, ?_, ?_, rfl, rfl, rfl, ?_, rfl, ?_⟩
  · simp only [buffer.size]; omega
  · unfold buffer.holds buffer.elems
    have hxs2 : List.map some xs = w.slots b.first (b.last - b.first) := hxs.symm
    simp only [List.map_append, List.map_take, List.map_drop, hxs2]
    rw [World.slots_take _ _ _ _ (by omega), World.slots_drop _ _ _ _ (by omega)]
    have e : b.first + i + (b.last - (b.first + j)) - b.first = i + (b.last - b.first - j) := by
      omega
    rw [e, World.slots_append]
    congr 1
    · apply World.slots_congr
      intro k hk
      rw [hmem _ (by omega), if_neg (by omega)]
    · apply World.slots_congr
      intro k hk
      rw [hmem _ (by omega), if_pos (by omega)]
      congr 1; omega
  · unfold World.allocCalls
    rw [buffer_destroy_range_log, loop_up2_log move Event.assign (fun _ _ _ => rfl)]
    simp [List.filter_append, destroy_events_no_alloc, filter_alloc_map, Event.isAllocatorCall]
  · intro hjs
    unfold buffer.size at hjs
    simp only; omega

/-- Witness for C2: erasing the middle element of the sample buffer. -/
theorem erase_removes_range_witness :
    sample_buffer.wf ∧ sample_buffer.holds sample_world [1, 2, 3] ∧ 1 ≤ 2 ∧
    2 ≤ sample_buffer.size ∧
    ∃ w2 b2 ret, buffer_erase complex_cfg (sample_buffer.first + 1) (sample_buffer.first + 2)
        sample_world sample_buffer = some (w2, b2, ret) ∧
      b2.size = sample_buffer.size - (2 - 1) ∧ b2.holds w2 ([1, 2, 3].take 1 ++ [1, 2, 3].drop 2) ∧
      b2.first = sample_buffer.first ∧ b2.capacity = sample_buffer.capacity ∧
      b2.cap = sample_buffer.cap ∧ w2.allocCalls = sample_world.allocCalls ∧
      ret = sample_buffer.first + 1 ∧ (2 = sample_buffer.size → ret = b2.last) :=
  ⟨by decide, by decide, by decide, by decide,
    erase_removes_range complex_cfg 1 2 sample_world sample_buffer [1, 2, 3]
      (by decide) (by decide) (by decide) (by decide)⟩

/-! ## swap -/

/-- C7: `buffer_swap` gives each buffer the three cursors the other had, so
each has the elements and the capacity the other had; no slot changes and the
log of calls (element operations and allocator calls) is unchanged. -/
theorem swap_exchanges_cursors (w : World T) (a b : buffer) :
    (buffer_swap w a b).2.1 = b ∧ (buffer_swap w a b).2.2 = a ∧
    (buffer_swap w a b).2.1.elems (buffer_swap w a b).1 = b.elems w ∧
    (buffer_swap w a b).2.2.elems (buffer_swap w a b).1 = a.elems w ∧
    (buffer_swap w a b).2.1.cap = b.cap ∧ (buffer_swap w a b).2.2.cap = a.cap ∧
    (buffer_swap w a b).1.mem = w.mem ∧ (buffer_swap w a b).1.log = w.log ∧
    (buffer_swap w a b).1.elementOps = w.elementOps ∧
    (buffer_swap w a b).1.allocCalls = w.allocCalls := by
  simp [buffer_swap]

/-! ## insert -/

theorem World.allocCalls_put (w : World T) (p : Nat) (s : Option T) (e : Event)
    (he : e.isAllocatorCall = false) : (w.put p s e).allocCalls = w.allocCalls := by
  simp [World.allocCalls, List.filter_append, he]

theorem loop_up1_allocCalls (body : Nat → World T → World T)
    (hb : ∀ q w, (body q w).allocCalls = w.allocCalls) (n p : Nat) (w : World T) :
    (loop_up1 body n p w).allocCalls = w.allocCalls := by
  induction n generalizing p w with
  | zero => rfl
  | succ n ih => simp only [loop_up1, ih, hb]

theorem loop_up2_allocCalls (body : Nat → Nat → World T → World T)
    (hb : ∀ d s w, (body d s w).allocCalls = w.allocCalls) (n dest src : Nat) (w : World T) :
    (loop_up2 body n dest src w).allocCalls = w.allocCalls := by
  induction n generalizing dest src w with
  | zero => rfl
  | succ n ih => simp only [loop_up2, ih, hb]

theorem loop_down2_allocCalls (body : Nat → Nat → World T → World T)
    (hb : ∀ d s w, (body d s w).allocCalls = w.allocCalls) (n dest src : Nat) (w : World T) :
    (loop_down2 body n dest src w).allocCalls = w.allocCalls := by
  induction n generalizing dest src w with
  | zero => rfl
  | succ n ih => simp only [loop_down2, ih, hb]

theorem buffer_destroy_range_allocCalls (pod : Bool) (first last : Nat) (w : World T) :
    (buffer_destroy_range pod first last w).allocCalls = w.allocCalls := by
  unfold World.allocCalls
  rw [buffer_destroy_range_log, List.filter_append, destroy_events_no_alloc, List.append_nil]

/-- The backward move ends when `first <= last` and makes no allocator call. -/
theorem buffer_bmove_urange_allocCalls (pod : Bool) (dest first last : Nat) (w : World T)
    (h : first ≤ last) :
    ∃ w2, buffer_bmove_urange pod dest first last w = some w2 ∧
      w2.allocCalls = w.allocCalls := by
  cases pod
  · simp only [buffer_bmove_urange, buffer_bmove_urange_traits, h, if_true]
    refine ⟨_, rfl, ?_⟩
    apply loop_down2_allocCalls
    intro d s w1
    rw [buffer_destroy_range_allocCalls]
    exact World.allocCalls_put _ _ _ _ rfl
  · simp only [buffer_bmove_urange, buffer_bmove_urange_traits, h, if_true]
    refine ⟨_, rfl, ?_⟩
    apply loop_down2_allocCalls
    intro d s w1
    exact World.allocCalls_put _ _ _ _ rfl

/-- The function `buffer_insert` is a reservation followed by `insert_finish`. -/
theorem buffer_insert_eq (cfg : Cfg) (pos sfirst slast : Nat) (w : World T) (b : buffer) :
    buffer_insert cfg pos sfirst slast w b =
      match (if cfg.ptr_add b.first (cfg.to_size ((b.last - b.first) + (slast - sfirst))) >
            b.capacity then
          buffer_reserve cfg
            (cfg.to_size (cfg.to_size ((b.last - b.first) + (slast - sfirst)) * 3) / 2) w b
        else Outcome.done w b) with
      | Outcome.done w1 b1 =>
        insert_finish cfg (pos - b.first) (cfg.to_size ((b.last - b.first) + (slast - sfirst)))
          sfirst slast w1 b1
      | r1 => r1 := by
  unfold buffer_insert insert_finish
  rfl

/-- The second half of `buffer_insert` returns when the position is not past
`last` and the source range is not reversed; it makes no allocator call and
moves only `last`. -/
theorem insert_finish_done (cfg : Cfg) (offset newsize sfirst slast : Nat) (w1 : World T)
    (b1 : buffer) (hpos : cfg.ptr_add b1.first offset ≤ b1.last) (hs : sfirst ≤ slast) :
    ∃ w2, insert_finish cfg offset newsize sfirst slast w1 b1 =
        Outcome.done w2 { b1 with last := cfg.ptr_add b1.first newsize } ∧
      w2.allocCalls = w1.allocCalls := by
  unfold insert_finish
  by_cases hp : cfg.ptr_add b1.first offset = b1.last
  · simp only [hp, ne_eq, not_true_eq_false, if_false, hs, if_true]
    refine ⟨_, rfl, ?_⟩
    rw [loop_up2_allocCalls copy_construct (fun _ _ _ => World.allocCalls_put _ _ _ _ rfl)]
  · obtain ⟨w2, hw2, hc⟩ := buffer_bmove_urange_allocCalls cfg.pod
      (cfg.ptr_add (cfg.ptr_add b1.first offset) (slast - sfirst)) (cfg.ptr_add b1.first offset)
      b1.last w1 hpos
    simp only [ne_eq, hp, not_false_eq_true, if_true, hw2, hs]
    refine ⟨_, rfl, ?_⟩
    rw [loop_up2_allocCalls copy_construct (fun _ _ _ => World.allocCalls_put _ _ _ _ rfl), hc]

/-- What `buffer_insert` does to the cursors and the allocator for every size,
wrapped or not: it returns; either both tests fail to hold the request inside
the buffer and it reallocates once to a block of more elements than the old
capacity, or it makes no allocator call and keeps `first` and `capacity`. -/
theorem buffer_insert_outcome (cfg : Cfg) (p m sfirst nf : Nat) (w : World T) (b : buffer)
    (hs : 0 < cfg.sizeofT) (hwf : b.wf) (hcap : cfg.in_range b.capacity) (hp : p ≤ b.size)
    (ha : cfg.ptr_add b.first (insert_newsize cfg b m) > b.capacity →
      ¬ cfg.ptr_add b.first (insert_request cfg b m) ≤ b.capacity →
      cfg.static_allocate w.log (cfg.to_size (cfg.sizeofT * insert_request cfg b m)) = some nf ∧
      cfg.sizeofT * nf + cfg.to_size (cfg.sizeofT * insert_request cfg b m) <
        2 ^ cfg.size_bits) :
    ∃ w2 b2, buffer_insert cfg (b.first + p) sfirst (sfirst + m) w b = Outcome.done w2 b2 ∧
      ((cfg.ptr_add b.first (insert_newsize cfg b m) > b.capacity ∧
          ¬ cfg.ptr_add b.first (insert_request cfg b m) ≤ b.capacity ∧
          b2 = { first := nf, last := cfg.ptr_add nf (insert_newsize cfg b m),
                 capacity := nf +
                   cfg.to_size (cfg.sizeofT * insert_request cfg b m) / cfg.sizeofT } ∧
          b.cap < cfg.to_size (cfg.sizeofT * insert_request cfg b m) / cfg.sizeofT ∧
          w2.allocCalls = w.allocCalls ++
            [Event.allocate (cfg.to_size (cfg.sizeofT * insert_request cfg b m)) (some nf),
             Event.deallocate b.first
               (cfg.to_size (cfg.sizeofT * insert_request cfg b m))]) ∨
        (¬ (cfg.ptr_add b.first (insert_newsize cfg b m) > b.capacity ∧
            ¬ cfg.ptr_add b.first (insert_request cfg b m) ≤ b.capacity) ∧
          b2 = { b with last := cfg.ptr_add b.first (insert_newsize cfg b m) } ∧
          w2.allocCalls = w.allocCalls)) := by
  obtain ⟨h1, h2⟩ := hwf
  unfold buffer.size at hp
  unfold insert_request insert_newsize at *
  have em : sfirst + m - sfirst = m := by omega
  have ep : b.first + p - b.first = p := by omega
  have hposb : cfg.ptr_add b.first p ≤ b.last := by
    rw [Cfg.ptr_add_of_in_range cfg _ _ hs (Cfg.in_range_mono cfg _ _ (by omega) hcap)]
    omega
  rw [buffer_insert_eq, em, ep]
  by_cases ht1 : cfg.ptr_add b.first (cfg.to_size (b.last - b.first + m)) > b.capacity
  · by_cases ht2 : cfg.ptr_add b.first
        (cfg.to_size (cfg.to_size (b.last - b.first + m) * 3) / 2) ≤ b.capacity
    · obtain ⟨w2, hw2, hcalls⟩ := insert_finish_done cfg p
        (cfg.to_size (b.last - b.first + m)) sfirst (sfirst + m) w b hposb (by omega)
      rw [if_pos ht1, buffer_reserve_noop cfg _ w b ht2]
      exact ⟨w2, _, hw2, Or.inr ⟨fun h => h.2 ht2, rfl, hcalls⟩⟩
    · obtain ⟨ha1, ha2⟩ := ha ht1 ht2
      obtain ⟨w1, hw1, hcapgt, hlog, _⟩ :=
        buffer_reserve_realloc cfg _ nf w b hs h1 h2 ht2 ha1 ha2
      have hposn : cfg.ptr_add nf p ≤ nf + (b.last - b.first) := by
        rw [Cfg.ptr_add_of_in_range cfg _ _ hs]
        · omega
        · unfold Cfg.in_range
          have h3 : cfg.sizeofT * p ≤ cfg.sizeofT *
              (cfg.to_size (cfg.sizeofT *
                (cfg.to_size (cfg.to_size (b.last - b.first + m) * 3) / 2)) / cfg.sizeofT) :=
            Nat.mul_le_mul_left _ (by omega)
          have h4 := Nat.mul_div_le (cfg.to_size (cfg.sizeofT *
            (cfg.to_size (cfg.to_size (b.last - b.first + m) * 3) / 2))) cfg.sizeofT
          rw [Nat.mul_add]
          omega
      obtain ⟨w2, hw2, hcalls⟩ := insert_finish_done cfg p
        (cfg.to_size (b.last - b.first + m)) sfirst (sfirst + m) w1
        { first := nf, last := nf + (b.last - b.first),
          capacity := nf + cfg.to_size (cfg.sizeofT *
            (cfg.to_size (cfg.to_size (b.last - b.first + m) * 3) / 2)) / cfg.sizeofT }
        hposn (by omega)
      rw [if_pos ht1, hw1]
      refine ⟨w2, _, hw2, Or.inl ⟨ht1, ht2, rfl, hcapgt, ?_⟩⟩
      rw [hcalls]
      unfold World.allocCalls
      rw [hlog]
      simp [List.filter_append, move_events_no_alloc, Event.isAllocatorCall]
  · obtain ⟨w2, hw2, hcalls⟩ := insert_finish_done cfg p
      (cfg.to_size (b.last - b.first + m)) sfirst (sfirst + m) w b hposb (by omega)
    rw [if_neg ht1]
    exact ⟨w2, _, hw2, Or.inr ⟨fun h => ht1 h.1, rfl, hcalls⟩⟩

/-- The sizes `buffer_insert` computes when nothing wraps. -/
theorem insert_sizes_of_in_range (cfg : Cfg) (m : Nat) (b : buffer) (hs : 0 < cfg.sizeofT)
    (h3 : (b.size + m) * 3 < 2 ^ cfg.size_bits)
    (hrange : cfg.in_range (b.first + (b.size + m) * 3 / 2)) :
    insert_newsize cfg b m = b.size + m ∧
    insert_request cfg b m = (b.size + m) * 3 / 2 ∧
    cfg.ptr_add b.first (b.size + m) = b.first + (b.size + m) ∧
    cfg.ptr_add b.first ((b.size + m) * 3 / 2) = b.first + (b.size + m) * 3 / 2 ∧
    cfg.to_size (cfg.sizeofT * ((b.size + m) * 3 / 2)) = cfg.sizeofT * ((b.size + m) * 3 / 2) ∧
    cfg.to_size (cfg.sizeofT * ((b.size + m) * 3 / 2)) / cfg.sizeofT =
      (b.size + m) * 3 / 2 := by
  unfold insert_request insert_newsize buffer.size at *
  have e1 : cfg.to_size (b.last - b.first + m) = b.last - b.first + m :=
    Cfg.to_size_of_lt cfg _ (by omega)
  have hb := Cfg.bytes_of_in_range cfg ((b.last - b.first + m) * 3 / 2) hs
    (Cfg.in_range_mono cfg _ _ (by omega) hrange)
  refine ⟨e1, ?_, ?_, ?_, hb.1, hb.2⟩
  · rw [e1, Cfg.to_size_of_lt cfg _ h3]
  · exact Cfg.ptr_add_of_in_range cfg _ _ hs (Cfg.in_range_mono cfg _ _ (by omega) hrange)
  · exact Cfg.ptr_add_of_in_range cfg _ _ hs hrange

/-- C8 (as amended): for a well-formed buffer of size `s` and capacity `c`
whose cursors are addresses in range, an insert of `m` elements at an offset
`p <= s` returns; if `s + m > c`, the product `(s + m) * 3` and the pointer
sum `first + (s + m) * 3 / 2` do not wrap and the allocator succeeds with a
block inside the address space, the allocator calls made are one
`static_allocate` and one `static_deallocate`, and the new capacity is
`(s + m) * 3 / 2`, which is at least `s + m`; if `s + m <= c` no allocator call
is made and the capacity is still `c`. -/
theorem insert_growth_policy (cfg : Cfg) (p m sfirst nf : Nat) (w : World T) (b : buffer)
    (hs : 0 < cfg.sizeofT) (hcap : cfg.in_range b.capacity) (hwf : b.wf) (hp : p ≤ b.size)
    (ha : b.cap < b.size + m →
      (b.size + m) * 3 < 2 ^ cfg.size_bits ∧
      cfg.in_range (b.first + (b.size + m) * 3 / 2) ∧
      cfg.static_allocate w.log (cfg.sizeofT * ((b.size + m) * 3 / 2)) = some nf ∧
      cfg.in_range (nf + (b.size + m) * 3 / 2)) :
    ∃ w2 b2, buffer_insert cfg (b.first + p) sfirst (sfirst + m) w b = Outcome.done w2 b2 ∧
      (b.cap < b.size + m →
        b2.cap = (b.size + m) * 3 / 2 ∧ b.size + m ≤ b2.cap ∧
        w2.allocCalls = w.allocCalls ++
          [Event.allocate (cfg.sizeofT * ((b.size + m) * 3 / 2)) (some nf),
           Event.deallocate b.first (cfg.sizeofT * ((b.size + m) * 3 / 2))]) ∧
      (b.size + m ≤ b.cap → b2.cap = b.cap ∧ w2.allocCalls = w.allocCalls) := by
  by_cases hc : b.cap < b.size + m
  · obtain ⟨h3, hrange, ha1, ha2⟩ := ha hc
    obtain ⟨e1, e2, e3, e4, e5, e6⟩ := insert_sizes_of_in_range cfg m b hs h3 hrange
    have ht1 : cfg.ptr_add b.first (insert_newsize cfg b m) > b.capacity := by
      rw [e1, e3]; unfold buffer.cap buffer.size at hc; unfold buffer.size
      have := hwf.1; have := hwf.2; omega
    have ht2 : ¬ cfg.ptr_add b.first (insert_request cfg b m) ≤ b.capacity := by
      rw [e2, e4]; unfold buffer.cap buffer.size at hc; unfold buffer.size
      have := hwf.1; have := hwf.2; omega
    obtain ⟨w2, b2, hw2, hcase⟩ := buffer_insert_outcome cfg p m sfirst nf w b hs hwf hcap hp
      (fun _ _ => by
        rw [e2, e5]
        refine ⟨ha1, ?_⟩
        rw [← Nat.mul_add]; exact ha2)
    refine ⟨w2, b2, hw2, ?_, fun hle => absurd hc (by omega)⟩
    intro _
    rcases hcase with ⟨_, _, hb2, _, hcalls⟩ | ⟨hno, _, _⟩
    · rw [e2, e5] at hcalls
      rw [e2, e6] at hb2
      refine ⟨?_, ?_, hcalls⟩
      · rw [hb2]; simp [buffer.cap]
      · rw [hb2]; simp only [buffer.cap, Nat.add_sub_cancel_left]; omega
    · exact absurd ⟨ht1, ht2⟩ hno
  · have h1 := hwf.1
    have h2 := hwf.2
    have hsm : b.size + m ≤ b.cap := by omega
    unfold buffer.cap buffer.size at hsm
    have e1 : insert_newsize cfg b m = b.last - b.first + m := by
      unfold insert_newsize
      apply Cfg.to_size_of_lt
      have := Cfg.lt_of_in_range cfg _ hs hcap
      omega
    have ht1 : ¬ cfg.ptr_add b.first (insert_newsize cfg b m) > b.capacity := by
      rw [e1, Cfg.ptr_add_of_in_range cfg _ _ hs (Cfg.in_range_mono cfg _ _ (by omega) hcap)]
      omega
    obtain ⟨w2, b2, hw2, hcase⟩ := buffer_insert_outcome cfg p m sfirst nf w b hs hwf hcap hp
      (fun h => absurd h ht1)
    refine ⟨w2, b2, hw2, fun h => absurd h hc, ?_⟩
    intro _
    rcases hcase with ⟨h, _⟩ | ⟨_, hb2, hcalls⟩
    · exact absurd h ht1
    · exact ⟨by rw [hb2]; rfl, hcalls⟩

/-- Witness for C8: two elements inserted at offset 1 of the full sample buffer. -/
theorem insert_growth_policy_witness :
    0 < complex_cfg.sizeofT ∧ complex_cfg.in_range sample_buffer.capacity ∧
    sample_buffer.wf ∧ 1 ≤ sample_buffer.size ∧
    (sample_buffer.cap < sample_buffer.size + 2 →
      (sample_buffer.size + 2) * 3 < 2 ^ complex_cfg.size_bits ∧
      complex_cfg.in_range (sample_buffer.first + (sample_buffer.size + 2) * 3 / 2) ∧
      complex_cfg.static_allocate sample_world.log
        (complex_cfg.sizeofT * ((sample_buffer.size + 2) * 3 / 2)) = some 100 ∧
      complex_cfg.in_range (100 + (sample_buffer.size + 2) * 3 / 2)) ∧
    ∃ w2 b2, buffer_insert complex_cfg (sample_buffer.first + 1) 20 (20 + 2) sample_world
        sample_buffer = Outcome.done w2 b2 ∧
      (sample_buffer.cap < sample_buffer.size + 2 →
        b2.cap = (sample_buffer.size + 2) * 3 / 2 ∧ sample_buffer.size + 2 ≤ b2.cap ∧
        w2.allocCalls = sample_world.allocCalls ++
          [Event.allocate (complex_cfg.sizeofT * ((sample_buffer.size + 2) * 3 / 2)) (some 100),
           Event.deallocate sample_buffer.first
             (complex_cfg.sizeofT * ((sample_buffer.size + 2) * 3 / 2))]) ∧
      (sample_buffer.size + 2 ≤ sample_buffer.cap →
        b2.cap = sample_buffer.cap ∧ w2.allocCalls = sample_world.allocCalls) :=
  ⟨by decide, by decide, by decide, by decide,
    fun _ => ⟨by decide, by decide, rfl, by decide⟩,
    insert_growth_policy complex_cfg 1 2 20 100 sample_world sample_buffer
      (by decide) (by decide) (by decide) (by decide)
      (fun _ => ⟨by decide, by decide, rfl, by decide⟩)⟩

/-- C8 (counterexample): with one-byte elements and a 32-bit `size_t`, a full
buffer of `0x55555555` elements receives one more element at its end: the new
size `0x55555556` exceeds the capacity, but `(newsize * 3) / 2` wraps to 1, so
`buffer_reserve(1)` returns at once; the insert returns with no allocator call
and the old capacity, which is below the new size. -/
theorem insert_growth_wraps_to_no_reallocation :
    huge_buffer.wf ∧ huge_buffer.size ≤ huge_buffer.size ∧
    huge_buffer.cap < huge_buffer.size + 1 ∧
    insert_request (byte32_cfg false) huge_buffer 1 = 1 ∧
    ∃ w2 b2, buffer_insert (byte32_cfg false) (huge_buffer.first + huge_buffer.size) 8 (8 + 1)
        huge_world huge_buffer = Outcome.done w2 b2 ∧
      w2.allocCalls = huge_world.allocCalls ∧ b2.cap = huge_buffer.cap ∧
      b2.cap ≠ (huge_buffer.size + 1) * 3 / 2 ∧ ¬ (huge_buffer.size + 1 ≤ b2.cap) :=
  ⟨by decide, by decide, by decide, by decide, _, _, rfl, by decide, by decide, by decide,
    by decide⟩

/-- A backward copy loop over `n` slots whose destination lies at or above the source. -/
theorem loop_down2_mem (body : Nat → Nat → World T → World T) (ev : Nat → Event)
    (hb : ∀ d s w, body d s w = w.put d (w.mem s) (ev d)) (n dest src : Nat) (w : World T)
    (hov : src ≤ dest) (a : Nat) :
    (loop_down2 body n (dest + n) (src + n) w).mem a =
      if dest ≤ a ∧ a < dest + n then w.mem (src + (a - dest)) else w.mem a := by
  induction n generalizing w with
  | zero =>
    have h : ¬ (dest ≤ a ∧ a < dest + 0) := by omega
    rw [if_neg h]; rfl
  | succ n ih =>
    have e1 : dest + (n + 1) - 1 = dest + n := by omega
    have e2 : src + (n + 1) - 1 = src + n := by omega
    simp only [loop_down2, e1, e2]
    rw [ih]
    simp only [hb, World.put_mem]
    by_cases h2 : dest ≤ a ∧ a < dest + n
    · have h3 : dest ≤ a ∧ a < dest + (n + 1) := by omega
      have h4 : src + (a - dest) ≠ dest + n := by omega
      rw [if_pos h2, if_pos h3, if_neg h4]
    · by_cases h1 : a = dest + n
      · subst h1
        have h3 : dest ≤ dest + n ∧ dest + n < dest + (n + 1) := by omega
        have h5 : src + (dest + n - dest) = src + n := by omega
        rw [if_neg h2, if_pos rfl, if_pos h3, h5]
      · have h3 : ¬ (dest ≤ a ∧ a < dest + (n + 1)) := by omega
        rw [if_neg h2, if_neg h1, if_neg h3]

/-- The backward loop of the complex variant when the destination lies
strictly above the source: the destination range receives the source slots,
and the source slots below the destination are left raw. -/
theorem loop_down2_destroy_mem (n dest src : Nat) (w : World T) (hov : src < dest) (a : Nat) :
    (loop_down2 (fun d s w1 => buffer_destroy_range false s (s + 1) (move_construct d s w1))
      n (dest + n) (src + n) w).mem a =
      if dest ≤ a ∧ a < dest + n then w.mem (src + (a - dest))
      else if src ≤ a ∧ a < src + n then none else w.mem a := by
  induction n generalizing w with
  | zero =>
    have h : ¬ (dest ≤ a ∧ a < dest + 0) := by omega
    have h2 : ¬ (src ≤ a ∧ a < src + 0) := by omega
    rw [if_neg h, if_neg h2]; rfl
  | succ n ih =>
    have e1 : dest + (n + 1) - 1 = dest + n := by omega
    have e2 : src + (n + 1) - 1 = src + n := by omega
    simp only [loop_down2, e1, e2]
    rw [ih]
    have hbody : ∀ x, (buffer_destroy_range false (src + n) (src + n + 1)
        (move_construct (dest + n) (src + n) w)).mem x =
        if x = src + n then none else if x = dest + n then w.mem (src + n) else w.mem x := by
      intro x
      rw [buffer_destroy_range_mem]
      simp only [move_construct, World.put_mem, true_and]
      by_cases hx : x = src + n
      · subst hx; simp
      · have : ¬ (src + n ≤ x ∧ x < src + n + 1) := by omega
        rw [if_neg this, if_neg hx]
    simp only [hbody]
    by_cases h2 : dest ≤ a ∧ a < dest + n
    · have h3 : dest ≤ a ∧ a < dest + (n + 1) := by omega
      have h4 : src + (a - dest) ≠ dest + n := by omega
      have h5 : src + (a - dest) ≠ src + n := by omega
      rw [if_pos h2, if_pos h3, if_neg h5, if_neg h4]
    · rw [if_neg h2]
      by_cases h1 : a = dest + n
      · subst h1
        have h3 : dest ≤ dest + n ∧ dest + n < dest + (n + 1) := by omega
        have h5 : src + (dest + n - dest) = src + n := by omega
        have h6 : ¬ (src ≤ dest + n ∧ dest + n < src + n) := by omega
        have h7 : dest + n ≠ src + n := by omega
        rw [if_neg h6, if_neg h7, if_pos rfl, if_pos h3, h5]
      · have h3 : ¬ (dest ≤ a ∧ a < dest + (n + 1)) := by omega
        rw [if_neg h3]
        by_cases h8 : src ≤ a ∧ a < src + n
        · have h9 : src ≤ a ∧ a < src + (n + 1) := by omega
          rw [if_pos h8, if_pos h9]
        · by_cases h10 : a = src + n
          · subst h10
            have h9 : src ≤ src + n ∧ src + n < src + (n + 1) := by omega
            rw [if_neg h8, if_pos rfl, if_pos h9]
          · have h9 : ¬ (src ≤ a ∧ a < src + (n + 1)) := by omega
            rw [if_neg h8, if_neg h10, if_neg h1, if_neg h9]

/-- The backward move to a destination above the source (strictly above for
the complex variant): it ends, the destination range receives the source
slots, and every slot below the destination and below the source is kept. -/
theorem buffer_bmove_urange_mem (pod : Bool) (dest first last : Nat) (w : World T)
    (h : first ≤ last) (hd : first ≤ dest) (hc : pod = true ∨ first < dest) :
    ∃ w2, buffer_bmove_urange pod dest first last w = some w2 ∧
      (∀ a, dest ≤ a → a < dest + (last - first) → w2.mem a = w.mem (first + (a - dest))) ∧
      (∀ a, a < first ∨ dest + (last - first) ≤ a ∧ last ≤ a → w2.mem a = w.mem a) := by
  obtain ⟨n, rfl⟩ := Nat.exists_eq_add_of_le h
  have en : first + n - first = n := by omega
  cases pod
  · have hlt : first < dest := by
      rcases hc with hc | hc
      · exact absurd hc (by decide)
      · exact hc
    simp only [buffer_bmove_urange, buffer_bmove_urange_traits, h, if_true, en]
    refine ⟨_, rfl, ?_, ?_⟩
    · intro a h1 h2
      rw [loop_down2_destroy_mem _ _ _ _ hlt, if_pos ⟨h1, h2⟩]
    · intro a ha
      rw [loop_down2_destroy_mem _ _ _ _ hlt, if_neg (by omega), if_neg (by omega)]
  · simp only [buffer_bmove_urange, buffer_bmove_urange_traits, h, if_true, en]
    refine ⟨_, rfl, ?_, ?_⟩
    · intro a h1 h2
      rw [loop_down2_mem assign_from Event.assign (fun _ _ _ => rfl) _ _ _ _ hd,
        if_pos ⟨h1, h2⟩]
    · intro a ha
      rw [loop_down2_mem assign_from Event.assign (fun _ _ _ => rfl) _ _ _ _ hd,
        if_neg (by omega)]

/-- The second half of `buffer_insert`, slot by slot, when its pointer sums
do not wrap: the slots before the position are kept, the gap receives the
source slots, and the former tail follows.  For a complex type this needs a
non-empty source range or a position at `last`. -/
theorem insert_finish_elems (cfg : Cfg) (offset m sfirst : Nat) (w1 : World T) (b1 : buffer)
    (hs : 0 < cfg.sizeofT) (hrange : cfg.in_range (b1.last + m))
    (hpos : b1.first + offset ≤ b1.last)
    (hsrc : sfirst + m ≤ b1.first ∨ b1.last + m ≤ sfirst)
    (hcase : cfg.pod = true ∨ 0 < m ∨ b1.first + offset = b1.last) :
    ∃ w2, insert_finish cfg offset ((b1.last - b1.first) + m) sfirst (sfirst + m) w1 b1 =
        Outcome.done w2 { b1 with last := b1.first + ((b1.last - b1.first) + m) } ∧
      w2.slots b1.first ((b1.last - b1.first) + m) =
        w1.slots b1.first offset ++ w1.slots sfirst m ++
          w1.slots (b1.first + offset) (b1.last - (b1.first + offset)) := by
  have em : sfirst + m - sfirst = m := by omega
  have e1 : cfg.ptr_add b1.first offset = b1.first + offset :=
    Cfg.ptr_add_of_in_range cfg _ _ hs (Cfg.in_range_mono cfg _ _ (by omega) hrange)
  have e2 : cfg.ptr_add (b1.first + offset) m = b1.first + offset + m :=
    Cfg.ptr_add_of_in_range cfg _ _ hs (Cfg.in_range_mono cfg _ _ (by omega) hrange)
  have e3 : cfg.ptr_add b1.first (b1.last - b1.first + m) = b1.first + (b1.last - b1.first + m) :=
    Cfg.ptr_add_of_in_range cfg _ _ hs (Cfg.in_range_mono cfg _ _ (by omega) hrange)
  have hmoved : ∃ w2,
      (if b1.first + offset ≠ b1.last then
        buffer_bmove_urange cfg.pod (b1.first + offset + m) (b1.first + offset) b1.last w1
       else some w1) = some w2 ∧
      (∀ a, b1.first + offset + m ≤ a → a < b1.last + m →
        w2.mem a = w1.mem (b1.first + offset + (a - (b1.first + offset + m)))) ∧
      (∀ a, a < b1.first + offset ∨ b1.last + m ≤ a → w2.mem a = w1.mem a) := by
    by_cases hp : b1.first + offset = b1.last
    · refine ⟨w1, by simp [hp], ?_, ?_⟩
      · intro a h1 h2; omega
      · intro a _; rfl
    · have hc : cfg.pod = true ∨ b1.first + offset < b1.first + offset + m := by
        rcases hcase with h | h | h
        · exact Or.inl h
        · exact Or.inr (by omega)
        · exact absurd h hp
      obtain ⟨w2, hw2, hA, hB⟩ := buffer_bmove_urange_mem cfg.pod (b1.first + offset + m)
        (b1.first + offset) b1.last w1 hpos (by omega) hc
      refine ⟨w2, by simp [hp, hw2], ?_, ?_⟩
      · intro a h1 h2
        exact hA a h1 (by omega)
      · intro a ha
        exact hB a (by omega)
  obtain ⟨w2, hw2, hA, hB⟩ := hmoved
  have hmem : ∀ a, (loop_up2 copy_construct m (b1.first + offset) sfirst w2).mem a =
      if b1.first + offset ≤ a ∧ a < b1.first + offset + m
      then w2.mem (sfirst + (a - (b1.first + offset))) else w2.mem a := by
    intro a
    rw [loop_up2_mem copy_construct Event.construct (fun _ _ _ => rfl) _ _ _ _ (by omega)]
  refine ⟨loop_up2 copy_construct m (b1.first + offset) sfirst w2, ?_, ?_⟩
  · unfold insert_finish
    simp only [em, e1, e2, e3, hw2, Nat.le_add_right, if_true]
  · have e : b1.last - b1.first + m = offset + (m + (b1.last - (b1.first + offset))) := by omega
    rw [e, World.slots_append, World.slots_append, List.append_assoc]
    congr 1
    · apply World.slots_congr
      intro i hi
      rw [hmem, if_neg (by omega), hB _ (by omega)]
    · congr 1
      · apply World.slots_congr
        intro i hi
        rw [hmem, if_pos (by omega), hB _ (by omega)]
        congr 1; omega
      · apply World.slots_congr
        intro i hi
        rw [hmem, if_neg (by omega), hA _ (by omega) (by omega)]
        congr 1; omega

/-- What `buffer_insert` achieves where it is right: for a well-formed buffer
holding `xs` whose cursors are addresses in range, an offset `p <= size` and a
source range holding `ys` outside the buffer's block, the insert returns a
buffer of size `size + m` holding `xs[0, p) ++ ys ++ xs[p, size)`, for a plain
type always and for a complex type when `ys` is not empty or the position is
`last`.  When it reallocates, the sizes must not wrap and the allocator must
answer with a fresh block inside the address space and away from the source. -/
theorem buffer_insert_correct (cfg : Cfg) (p m sfirst nf : Nat) (w : World T) (b : buffer)
    (xs ys : List T) (hs : 0 < cfg.sizeofT) (hcap : cfg.in_range b.capacity) (hwf : b.wf)
    (hxs : b.holds w xs) (hys : w.slots sfirst m = ys.map some)
    (hp : p ≤ b.size) (hsrc : fresh_from sfirst m b.first b.capacity)
    (ha : b.cap < b.size + m →
      (b.size + m) * 3 < 2 ^ cfg.size_bits ∧
      cfg.in_range (b.first + (b.size + m) * 3 / 2) ∧
      cfg.static_allocate w.log (cfg.sizeofT * ((b.size + m) * 3 / 2)) = some nf ∧
      cfg.in_range (nf + (b.size + m) * 3 / 2) ∧
      fresh_from nf ((b.size + m) * 3 / 2) b.first b.capacity ∧
      fresh_from nf ((b.size + m) * 3 / 2) sfirst (sfirst + m))
    (hcase : cfg.pod = true ∨ 0 < m ∨ p = b.size) :
    ∃ w2 b2, buffer_insert cfg (b.first + p) sfirst (sfirst + m) w b = Outcome.done w2 b2 ∧
      b2.size = b.size + m ∧ b2.holds w2 (xs.take p ++ ys ++ xs.drop p) := by
  obtain ⟨h1, h2⟩ := hwf
  have em : sfirst + m - sfirst = m := by omega
  have ep : b.first + p - b.first = p := by unfold buffer.size at hp; omega
  have hxs2 : List.map some xs = w.slots b.first (b.last - b.first) := hxs.symm
  have hgoal : List.map some (xs.take p ++ ys ++ xs.drop p) =
      w.slots b.first p ++ w.slots sfirst m ++ w.slots (b.first + p) (b.last - (b.first + p)) := by
    unfold buffer.size at hp
    simp only [List.map_append, List.map_take, List.map_drop, hxs2, hys]
    rw [World.slots_take _ _ _ _ (by omega), World.slots_drop _ _ _ _ (by omega)]
    congr 2; omega
  rw [buffer_insert_eq, em, ep]
  by_cases hc : b.cap < b.size + m
  · obtain ⟨h3, hrange, ha1, ha2, ha3, ha4⟩ := ha hc
    obtain ⟨e1, e2, e3, _, _, _⟩ := insert_sizes_of_in_range cfg m b hs h3 hrange
    unfold insert_request insert_newsize at e2
    unfold insert_newsize at e1
    rw [e1] at e2
    unfold buffer.size buffer.cap fresh_from at *
    have hgt : b.first + (b.last - b.first + m) > b.capacity := by omega
    obtain ⟨w1, b1, hw1, hb1, _, _, _, _, hmem1⟩ :=
      reserve_realloc_keeps_elems cfg ((b.last - b.first + m) * 3 / 2) nf w b hs ⟨h1, h2⟩
        (by unfold buffer.cap; omega) hrange ha1 ha2 (by unfold fresh_from; omega)
    subst hb1
    obtain ⟨w2, hw2, hslots⟩ := insert_finish_elems cfg p m sfirst w1
      { first := nf, last := nf + (b.last - b.first),
        capacity := nf + (b.last - b.first + m) * 3 / 2 } hs
      (Cfg.in_range_mono cfg _ _
        (by show nf + (b.last - b.first) + m ≤ nf + (b.last - b.first + m) * 3 / 2; omega) ha2)
      (by show nf + p ≤ nf + (b.last - b.first); omega)
      (by show sfirst + m ≤ nf ∨ nf + (b.last - b.first) + m ≤ sfirst; omega)
      (by
        rcases hcase with h | h | h
        · exact Or.inl h
        · exact Or.inr (Or.inl h)
        · exact Or.inr (Or.inr (by show nf + p = nf + (b.last - b.first); omega)))
    simp only [Nat.add_sub_cancel_left] at hw2 hslots
    simp only [e1, e2, e3, hgt, if_true, hw1, hw2]
    refine ⟨_, _, rfl, by simp, ?_⟩
    unfold buffer.holds buffer.elems
    simp only [Nat.add_sub_cancel_left]
    rw [hgoal, hslots]
    congr 1
    · congr 1
      · apply World.slots_congr
        intro i hi
        rw [hmem1, if_pos (by omega)]
        congr 1; omega
      · apply World.slots_congr
        intro i hi
        by_cases hm0 : m = 0
        · omega
        · rw [hmem1, if_neg (by omega), if_neg (by omega)]
    · have e : nf + (b.last - b.first) - (nf + p) = b.last - (b.first + p) := by omega
      rw [e]
      apply World.slots_congr
      intro i hi
      rw [hmem1, if_pos (by omega)]
      congr 1; omega
  · unfold buffer.size buffer.cap fresh_from at *
    have hlt := Cfg.lt_of_in_range cfg _ hs hcap
    have e1 : cfg.to_size (b.last - b.first + m) = b.last - b.first + m :=
      Cfg.to_size_of_lt cfg _ (by omega)
    have hrl : cfg.in_range (b.last + m) := Cfg.in_range_mono cfg _ _ (by omega) hcap
    have e3 : cfg.ptr_add b.first (b.last - b.first + m) = b.first + (b.last - b.first + m) :=
      Cfg.ptr_add_of_in_range cfg _ _ hs (Cfg.in_range_mono cfg _ _ (by omega) hcap)
    have hgt : ¬ (b.first + (b.last - b.first + m) > b.capacity) := by omega
    obtain ⟨w2, hw2, hslots⟩ := insert_finish_elems cfg p m sfirst w b hs hrl (by omega)
      (by omega)
      (by
        rcases hcase with h | h | h
        · exact Or.inl h
        · exact Or.inr (Or.inl h)
        · exact Or.inr (Or.inr (by omega)))
    simp only [e1, e3, hgt, if_false, hw2]
    refine ⟨_, _, rfl, ?_, ?_⟩
    · show b.first + (b.last - b.first + m) - b.first = b.last - b.first + m
      omega
    · unfold buffer.holds buffer.elems
      simp only [Nat.add_sub_cancel_left]
      rw [hgoal, hslots]

/-- C1 (the code at the failing input): for a complex element type, inserting
the empty source range `[20, 20)` at offset 1 of the sample buffer `[1, 2, 3]`
returns with the cursors unchanged, but the backward move of the tail onto
itself has run the destructor on slots 12 and 11, which are inside
`[first, last)`: the buffer no longer holds `[1, 2, 3]`.  The plain overload
at the same input leaves `[1, 2, 3]` in place. -/
theorem insert_empty_range_destroys_tail :
    (∃ w2 b2, buffer_insert complex_cfg 11 20 20 sample_world sample_buffer = Outcome.done w2 b2 ∧
      b2 = sample_buffer ∧ b2.elems w2 = [some 1, none, none] ∧
      w2.log = [Event.construct 12, Event.destroy 12, Event.construct 11, Event.destroy 11] ∧
      ¬ b2.holds w2 ([1, 2, 3].take 1 ++ [] ++ [1, 2, 3].drop 1)) ∧
    (∃ w3 b3, buffer_insert plain_cfg 11 20 20 sample_world sample_buffer = Outcome.done w3 b3 ∧
      b3 = sample_buffer ∧ b3.holds w3 ([1, 2, 3].take 1 ++ [] ++ [1, 2, 3].drop 1)) :=
  ⟨⟨_, _, rfl, by decide, by decide, by decide, by decide⟩,
    ⟨_, _, rfl, by decide, by decide⟩⟩

/-! ## destroy -/

/-- The calls made by `buffer_destroy`: the destroy-range over `[first, last)`,
then one `static_deallocate` on `first` with the converted byte difference
`(char*)first - (char*)last`. -/
theorem buffer_destroy_log (cfg : Cfg) (w : World T) (b : buffer) :
    (buffer_destroy cfg w b).log =
      w.log ++ destroy_events cfg.pod b.first (b.last - b.first) ++
        [Event.deallocate b.first (to_size_t cfg.size_bits
          ((cfg.sizeofT * b.first : Nat) - (cfg.sizeofT * b.last : Nat) : Int))] := by
  simp only [buffer_destroy, World.note_log, buffer_destroy_range_log]

/-- The byte count that `buffer_destroy` passes for a non-empty buffer is
`2 ^ size_bits` minus the bytes in use, not the bytes of the block. -/
theorem buffer_destroy_size (cfg : Cfg) (b : buffer) (h1 : b.first < b.last)
    (hs : 0 < cfg.sizeofT) (hb : cfg.sizeofT * (b.last - b.first) < 2 ^ cfg.size_bits) :
    to_size_t cfg.size_bits ((cfg.sizeofT * b.first : Nat) - (cfg.sizeofT * b.last : Nat) : Int)
      = 2 ^ cfg.size_bits - cfg.sizeofT * (b.last - b.first) := by
  obtain ⟨n, hn⟩ := Nat.exists_eq_add_of_lt h1
  have hl : b.last = b.first + (n + 1) := by omega
  have e1 : b.last - b.first = n + 1 := by omega
  rw [e1] at hb ⊢
  rw [hl]
  generalize hM : 2 ^ cfg.size_bits = M at hb
  have hM2 : (2 : Int) ^ cfg.size_bits = (M : Int) := by rw [← hM]; push_cast; rfl
  have hpos : 0 < cfg.sizeofT * (n + 1) := Nat.mul_pos hs (by omega)
  unfold to_size_t
  rw [hM2]
  have e2 : ((cfg.sizeofT * b.first : Nat) : Int) - ((cfg.sizeofT * (b.first + (n + 1)) : Nat) : Int)
      = ((M - cfg.sizeofT * (n + 1) : Nat) : Int) + (-1) * (M : Int) := by
    rw [Nat.mul_add]
    push_cast [Nat.cast_sub (le_of_lt hb)]
    ring
  rw [e2, Int.add_mul_emod_self, Int.emod_eq_of_lt (by omega) (by omega)]
  simp

/-- C10 (the code at the failing input): `buffer_destroy` on the sample buffer
of three four-byte elements and capacity five destroys slots 10, 11, 12 and
then calls `static_deallocate(10, 2 ^ 64 - 12)`, while the block spans
`4 * 5 = 20` bytes. -/
theorem destroy_deallocate_size_mismatch :
    (buffer_destroy complex_cfg sample_world roomy_buffer).log =
      [Event.destroy 10, Event.destroy 11, Event.destroy 12,
       Event.deallocate 10 18446744073709551604] ∧
    complex_cfg.sizeofT * roomy_buffer.cap = 20 ∧
    (18446744073709551604 : Nat) = 2 ^ 64 - 12 := by
  decide

/-! ## reserve: the block handed back -/

/-- The last call of the reallocating path of `buffer_reserve(n)` is
`static_deallocate(b->first, sizeof(T) * n)`: the size is that of the new
request, which is not the size `sizeof(T) * cap` of the old block. -/
theorem buffer_reserve_last_call (cfg : Cfg) (n nf : Nat) (w : World T) (b : buffer)
    (hs : 0 < cfg.sizeofT) (h1 : b.first ≤ b.last) (h2 : b.last ≤ b.capacity)
    (ht : ¬ cfg.ptr_add b.first n ≤ b.capacity)
    (ha : cfg.static_allocate w.log (cfg.to_size (cfg.sizeofT * n)) = some nf)
    (hfit : cfg.sizeofT * nf + cfg.to_size (cfg.sizeofT * n) < 2 ^ cfg.size_bits) :
    ∃ w2 b2, buffer_reserve cfg n w b = Outcome.done w2 b2 ∧
      w2.log.getLast? = some (Event.deallocate b.first (cfg.to_size (cfg.sizeofT * n))) ∧
      cfg.to_size (cfg.sizeofT * n) ≠ cfg.sizeofT * b.cap := by
  obtain ⟨w2, hw2, hlt, hlog, _⟩ := buffer_reserve_realloc cfg n nf w b hs h1 h2 ht ha hfit
  refine ⟨w2, _, hw2, ?_, ?_⟩
  · rw [hlog, List.getLast?_concat]
  · intro heq
    rw [heq, Nat.mul_div_cancel_left _ hs] at hlt
    unfold buffer.cap at hlt
    omega

/-- C11 (the code at the failing input): from the empty buffer, `reserve(3)`
allocates a block of `4 * 3 = 12` bytes at address 100; `reserve(5)` then
allocates 20 bytes at address 200 and hands the old block back with
`static_deallocate(100, 20)`, not with the 12 bytes it was allocated with. -/
theorem reserve_deallocates_with_new_size :
    ∃ w1 b1 w2 b2,
      buffer_reserve (bump_cfg false) 3 sample_world empty_buffer = Outcome.done w1 b1 ∧
      b1.cap = 3 ∧
      buffer_reserve (bump_cfg false) 5 w1 b1 = Outcome.done w2 b2 ∧
      w2.allocCalls = [Event.allocate 12 (some 100), Event.deallocate 0 12,
        Event.allocate 20 (some 200), Event.deallocate 100 20] ∧
      (bump_cfg false).sizeofT * b1.cap = 12 :=
  ⟨_, _, _, _, rfl, by decide, rfl, by decide, by decide⟩

/-! ## clear -/

/-- C12: `buffer_clear` runs the destroy-range over `[first, last)` and nothing
else (one destructor call per live slot for a complex type, none for a plain
one, no allocator call); afterwards `last = first`, so the size is 0, and
`first` and `capacity` are as before. -/
theorem clear_keeps_capacity (cfg : Cfg) (w : World T) (b : buffer) :
    (buffer_clear cfg w b).2 = { b with last := b.first } ∧
    (buffer_clear cfg w b).2.size = 0 ∧
    (buffer_clear cfg w b).2.first = b.first ∧
    (buffer_clear cfg w b).2.capacity = b.capacity ∧
    (buffer_clear cfg w b).2.cap = b.cap ∧
    (buffer_clear cfg w b).1.log = w.log ++ destroy_events cfg.pod b.first b.size ∧
    (buffer_clear cfg w b).1.allocCalls = w.allocCalls ∧
    (∀ a, (buffer_clear cfg w b).1.mem a =
      if cfg.pod = false ∧ b.first ≤ a ∧ a < b.last then none else w.mem a) := by
  refine ⟨rfl, by simp [buffer_clear, buffer.size], rfl, rfl, rfl, ?_, ?_, ?_⟩
  · simp only [buffer_clear, buffer_destroy_range_log, buffer.size]
  · simp only [buffer_clear, buffer_destroy_range_allocCalls]
  · intro a
    simp only [buffer_clear, buffer_destroy_range_mem]

/-! ## The cursors after each operation -/

/-- The outcome of `buffer_reserve` on the cursors for every requested size,
wrapped or not, for an allocator that answers a call with a block inside the
address space. -/
theorem buffer_reserve_cursors (cfg : Cfg) (n nf : Nat) (w : World T) (b : buffer)
    (hs : 0 < cfg.sizeofT) (h1 : b.first ≤ b.last) (h2 : b.last ≤ b.capacity)
    (ha : ¬ cfg.ptr_add b.first n ≤ b.capacity →
      cfg.static_allocate w.log (cfg.to_size (cfg.sizeofT * n)) = some nf ∧
      cfg.sizeofT * nf + cfg.to_size (cfg.sizeofT * n) < 2 ^ cfg.size_bits) :
    ∃ w2, buffer_reserve cfg n w b = Outcome.done w2
        (if cfg.ptr_add b.first n ≤ b.capacity then b
         else { first := nf, last := nf + (b.last - b.first),
                capacity := nf + cfg.to_size (cfg.sizeofT * n) / cfg.sizeofT }) ∧
      (¬ cfg.ptr_add b.first n ≤ b.capacity →
        b.capacity - b.first < cfg.to_size (cfg.sizeofT * n) / cfg.sizeofT) := by
  by_cases hc : cfg.ptr_add b.first n ≤ b.capacity
  · exact ⟨w, by rw [if_pos hc]; exact buffer_reserve_noop cfg n w b hc, fun h => absurd hc h⟩
  · obtain ⟨w2, hw2, hlt, _⟩ :=
      buffer_reserve_realloc cfg n nf w b hs h1 h2 hc (ha hc).1 (ha hc).2
    exact ⟨w2, by rw [if_neg hc]; exact hw2, fun _ => hlt⟩

/-- The outcome of `buffer_resize` on the cursors for every requested size:
`first` and `capacity` are those `buffer_reserve` leaves, and `last` is the
pointer sum `first + size`. -/
theorem buffer_resize_cursors (cfg : Cfg) (k nf value : Nat) (w : World T) (b : buffer)
    (hs : 0 < cfg.sizeofT) (h1 : b.first ≤ b.last) (h2 : b.last ≤ b.capacity)
    (ha : ¬ cfg.ptr_add b.first k ≤ b.capacity →
      cfg.static_allocate w.log (cfg.to_size (cfg.sizeofT * k)) = some nf ∧
      cfg.sizeofT * nf + cfg.to_size (cfg.sizeofT * k) < 2 ^ cfg.size_bits) :
    ∃ w2, buffer_resize cfg k value w b = Outcome.done w2
        (if cfg.ptr_add b.first k ≤ b.capacity then { b with last := cfg.ptr_add b.first k }
         else { first := nf, last := cfg.ptr_add nf k,
                capacity := nf + cfg.to_size (cfg.sizeofT * k) / cfg.sizeofT }) ∧
      (¬ cfg.ptr_add b.first k ≤ b.capacity →
        b.capacity - b.first < cfg.to_size (cfg.sizeofT * k) / cfg.sizeofT) := by
  obtain ⟨w1, hw1, hlt⟩ := buffer_reserve_cursors cfg k nf w b hs h1 h2 ha
  by_cases hc : cfg.ptr_add b.first k ≤ b.capacity
  · rw [if_pos hc] at hw1
    rw [if_pos hc]
    simp only [buffer_resize, hw1]
    exact ⟨_, rfl, hlt⟩
  · rw [if_neg hc] at hw1
    rw [if_neg hc]
    simp only [buffer_resize, hw1]
    exact ⟨_, rfl, hlt⟩

/-- The outcome of `buffer_insert` on the cursors when its sizes do not wrap,
for a position at offset `p <= size` and a source range of `m` slots. -/
theorem buffer_insert_cursors (cfg : Cfg) (p m sfirst nf : Nat) (w : World T) (b : buffer)
    (hs : 0 < cfg.sizeofT) (hcap : cfg.in_range b.capacity) (hwf : b.wf) (hp : p ≤ b.size)
    (ha : b.cap < b.size + m →
      (b.size + m) * 3 < 2 ^ cfg.size_bits ∧
      cfg.in_range (b.first + (b.size + m) * 3 / 2) ∧
      cfg.static_allocate w.log (cfg.sizeofT * ((b.size + m) * 3 / 2)) = some nf ∧
      cfg.in_range (nf + (b.size + m) * 3 / 2)) :
    ∃ w2, buffer_insert cfg (b.first + p) sfirst (sfirst + m) w b = Outcome.done w2
      (if b.size + m ≤ b.cap then { b with last := b.first + (b.size + m) }
       else { first := nf, last := nf + (b.size + m),
              capacity := nf + (b.size + m) * 3 / 2 }) := by
  by_cases hc : b.cap < b.size + m
  · obtain ⟨h3, hrange, ha1, ha2⟩ := ha hc
    obtain ⟨e1, e2, e3, e4, e5, e6⟩ := insert_sizes_of_in_range cfg m b hs h3 hrange
    have ht1 : cfg.ptr_add b.first (insert_newsize cfg b m) > b.capacity := by
      rw [e1, e3]; unfold buffer.cap buffer.size at hc; unfold buffer.size
      have := hwf.1; have := hwf.2; omega
    have ht2 : ¬ cfg.ptr_add b.first (insert_request cfg b m) ≤ b.capacity := by
      rw [e2, e4]; unfold buffer.cap buffer.size at hc; unfold buffer.size
      have := hwf.1; have := hwf.2; omega
    obtain ⟨w2, b2, hw2, hcase⟩ := buffer_insert_outcome cfg p m sfirst nf w b hs hwf hcap hp
      (fun _ _ => by
        rw [e2, e5]
        refine ⟨ha1, ?_⟩
        rw [← Nat.mul_add]; exact ha2)
    rcases hcase with ⟨_, _, hb2, _, _⟩ | ⟨hno, _, _⟩
    · rw [e2, e6, e1, Cfg.ptr_add_of_in_range cfg _ _ hs
        (Cfg.in_range_mono cfg _ _ (by omega) ha2)] at hb2
      rw [if_neg (by omega), ← hb2]
      exact ⟨w2, hw2⟩
    · exact absurd ⟨ht1, ht2⟩ hno
  · have h1 := hwf.1
    have h2 := hwf.2
    have hsm : b.size + m ≤ b.cap := by omega
    have hsm2 := hsm
    unfold buffer.cap buffer.size at hsm2
    have e1 : insert_newsize cfg b m = b.size + m := by
      unfold insert_newsize buffer.size
      apply Cfg.to_size_of_lt
      have := Cfg.lt_of_in_range cfg _ hs hcap
      omega
    have e3 : cfg.ptr_add b.first (b.size + m) = b.first + (b.size + m) :=
      Cfg.ptr_add_of_in_range cfg _ _ hs
        (Cfg.in_range_mono cfg _ _ (by unfold buffer.size; omega) hcap)
    have ht1 : ¬ cfg.ptr_add b.first (insert_newsize cfg b m) > b.capacity := by
      rw [e1, e3]; unfold buffer.size; omega
    obtain ⟨w2, b2, hw2, hcase⟩ := buffer_insert_outcome cfg p m sfirst nf w b hs hwf hcap hp
      (fun h => absurd h ht1)
    rcases hcase with ⟨h, _⟩ | ⟨_, hb2, _⟩
    · exact absurd h ht1
    · rw [e1, e3] at hb2
      rw [if_pos hsm, ← hb2]
      exact ⟨w2, hw2⟩

/-- The outcome of `buffer_erase` on the cursors, for offsets `i <= j <= size`. -/
theorem buffer_erase_cursors (cfg : Cfg) (i j : Nat) (w : World T) (b : buffer)
    (h1 : b.first ≤ b.last) (hij : i ≤ j) (hj : j ≤ b.last - b.first) :
    ∃ w2, buffer_erase cfg (b.first + i) (b.first + j) w b =
      some (w2, { b with last := b.last - (j - i) }, b.first + i) := by
  have hle : b.first + j ≤ b.last := by omega
  have hfl : b.first + i ≤ b.first + j := by omega
  have hnl : b.first + j - (b.first + i) = j - i := by omega
  simp only [buffer_erase, hle, hfl, if_true, hnl]
  exact ⟨_, rfl⟩

/-- C14 (as amended): the cursor ordering `first <= last <= capacity` holds
after `buffer_init` on any buffer.  Started on ordered cursors that are
addresses in range, `buffer_reserve` (every requested size, with an allocator
that answers a call with a block inside the address space), `buffer_clear`,
`buffer_erase` (offsets `i <= j <= size`) and `buffer_swap` return with ordered
cursors; `buffer_resize(k)` does when `first + k` does not wrap, and
`buffer_insert` (position at an offset `p <= size`) does when `(size + m) * 3`
and `first + (size + m) * 3 / 2` do not wrap, each with an allocator that
answers a call with a block inside the address space. -/
theorem cursor_order_preserved (cfg : Cfg) (w : World T) (b other : buffer) :
    (buffer_init w b).2.wf ∧
    (0 < cfg.sizeofT → cfg.in_range b.capacity → b.wf → other.wf →
      (∀ n nf,
        (¬ cfg.ptr_add b.first n ≤ b.capacity →
          cfg.static_allocate w.log (cfg.to_size (cfg.sizeofT * n)) = some nf ∧
          cfg.sizeofT * nf + cfg.to_size (cfg.sizeofT * n) < 2 ^ cfg.size_bits) →
        ∃ w2 b2, buffer_reserve cfg n w b = Outcome.done w2 b2 ∧ b2.wf) ∧
      (∀ k nf value, cfg.in_range (b.first + k) →
        (b.cap < k →
          cfg.static_allocate w.log (cfg.sizeofT * k) = some nf ∧ cfg.in_range (nf + k)) →
        ∃ w2 b2, buffer_resize cfg k value w b = Outcome.done w2 b2 ∧ b2.wf) ∧
      (buffer_clear cfg w b).2.wf ∧
      (∀ p m sfirst nf, p ≤ b.size →
        (b.cap < b.size + m →
          (b.size + m) * 3 < 2 ^ cfg.size_bits ∧
          cfg.in_range (b.first + (b.size + m) * 3 / 2) ∧
          cfg.static_allocate w.log (cfg.sizeofT * ((b.size + m) * 3 / 2)) = some nf ∧
          cfg.in_range (nf + (b.size + m) * 3 / 2)) →
        ∃ w2 b2, buffer_insert cfg (b.first + p) sfirst (sfirst + m) w b = Outcome.done w2 b2 ∧
          b2.wf) ∧
      (∀ i j, i ≤ j → j ≤ b.size →
        ∃ w2 b2 ret, buffer_erase cfg (b.first + i) (b.first + j) w b = some (w2, b2, ret) ∧
          b2.wf) ∧
      ((buffer_swap w b other).2.1.wf ∧ (buffer_swap w b other).2.2.wf)) := by
  refine ⟨by simp [buffer_init, buffer.wf], ?_⟩
  intro hs hcap hwf hother
  obtain ⟨h1, h2⟩ := hwf
  refine ⟨?_, ?_, ?_, ?_, ?_, ?_⟩
  · intro n nf ha
    obtain ⟨w2, hw2, hlt⟩ := buffer_reserve_cursors cfg n nf w b hs h1 h2 ha
    refine ⟨w2, _, hw2, ?_⟩
    split
    · exact ⟨h1, h2⟩
    · rename_i hc
      have := hlt hc
      simp only [buffer.wf]; omega
  · intro k nf value hrange ha
    have ek : cfg.ptr_add b.first k = b.first + k := Cfg.ptr_add_of_in_range cfg _ _ hs hrange
    have hb := Cfg.bytes_of_in_range cfg k hs (Cfg.in_range_mono cfg _ _ (by omega) hrange)
    obtain ⟨w2, hw2, _⟩ := buffer_resize_cursors cfg k nf value w b hs h1 h2
      (fun h => by
        rw [ek] at h
        obtain ⟨ha1, ha2⟩ := ha (by unfold buffer.cap; omega)
        rw [hb.1]
        refine ⟨ha1, ?_⟩
        rw [← Nat.mul_add]; exact ha2)
    refine ⟨w2, _, hw2, ?_⟩
    split
    · rename_i hc
      rw [ek] at hc
      simp only [buffer.wf, ek]; omega
    · rename_i hc
      rw [ek] at hc
      obtain ⟨_, ha2⟩ := ha (by unfold buffer.cap; omega)
      rw [hb.2, Cfg.ptr_add_of_in_range cfg _ _ hs ha2]
      simp only [buffer.wf]; omega
  · simp only [buffer_clear, buffer.wf]; omega
  · intro p m sfirst nf hp ha
    obtain ⟨w2, hw2⟩ := buffer_insert_cursors cfg p m sfirst nf w b hs hcap ⟨h1, h2⟩ hp ha
    refine ⟨w2, _, hw2, ?_⟩
    unfold buffer.size buffer.cap
    split
    · simp only [buffer.wf]; omega
    · simp only [buffer.wf]; omega
  · intro i j hij hj
    obtain ⟨w2, hw2⟩ := buffer_erase_cursors cfg i j w b h1 hij hj
    refine ⟨w2, _, _, hw2, ?_⟩
    unfold buffer.size at hj
    simp only [buffer.wf]; omega
  · exact ⟨hother, ⟨h1, h2⟩⟩

/-- Witness for C14: `buffer_init` on a buffer of unordered cursors, and the
operations on the sample buffers under the complex instantiation. -/
theorem cursor_order_preserved_witness :
    (buffer_init sample_world { first := 9, last := 3, capacity := 1 }).2.wf ∧
    0 < complex_cfg.sizeofT ∧ complex_cfg.in_range sample_buffer.capacity ∧
    sample_buffer.wf ∧ roomy_buffer.wf ∧
    ((∀ n nf,
      (¬ complex_cfg.ptr_add sample_buffer.first n ≤ sample_buffer.capacity →
        complex_cfg.static_allocate sample_world.log
          (complex_cfg.to_size (complex_cfg.sizeofT * n)) = some nf ∧
        complex_cfg.sizeofT * nf + complex_cfg.to_size (complex_cfg.sizeofT * n) <
          2 ^ complex_cfg.size_bits) →
      ∃ w2 b2, buffer_reserve complex_cfg n sample_world sample_buffer = Outcome.done w2 b2 ∧
        b2.wf) ∧
    (∀ k nf value, complex_cfg.in_range (sample_buffer.first + k) →
      (sample_buffer.cap < k →
        complex_cfg.static_allocate sample_world.log (complex_cfg.sizeofT * k) = some nf ∧
        complex_cfg.in_range (nf + k)) →
      ∃ w2 b2, buffer_resize complex_cfg k value sample_world sample_buffer =
        Outcome.done w2 b2 ∧ b2.wf) ∧
    (buffer_clear complex_cfg sample_world sample_buffer).2.wf ∧
    (∀ p m sfirst nf, p ≤ sample_buffer.size →
      (sample_buffer.cap < sample_buffer.size + m →
        (sample_buffer.size + m) * 3 < 2 ^ complex_cfg.size_bits ∧
        complex_cfg.in_range (sample_buffer.first + (sample_buffer.size + m) * 3 / 2) ∧
        complex_cfg.static_allocate sample_world.log
          (complex_cfg.sizeofT * ((sample_buffer.size + m) * 3 / 2)) = some nf ∧
        complex_cfg.in_range (nf + (sample_buffer.size + m) * 3 / 2)) →
      ∃ w2 b2, buffer_insert complex_cfg (sample_buffer.first + p) sfirst (sfirst + m)
        sample_world sample_buffer = Outcome.done w2 b2 ∧ b2.wf) ∧
    (∀ i j, i ≤ j → j ≤ sample_buffer.size →
      ∃ w2 b2 ret, buffer_erase complex_cfg (sample_buffer.first + i) (sample_buffer.first + j)
        sample_world sample_buffer = some (w2, b2, ret) ∧ b2.wf) ∧
    ((buffer_swap sample_world sample_buffer roomy_buffer).2.1.wf ∧
      (buffer_swap sample_world sample_buffer roomy_buffer).2.2.wf)) :=
  ⟨(cursor_order_preserved complex_cfg sample_world { first := 9, last := 3, capacity := 1 }
      roomy_buffer).1,
    by decide, by decide, by decide, by decide,
    (cursor_order_preserved complex_cfg sample_world sample_buffer roomy_buffer).2
      (by decide) (by decide) (by decide) (by decide)⟩

/-- C14 (counterexample): on the full sample buffer (`first = 10`,
`last = capacity = 13`, four-byte elements, 64-bit `size_t`) `buffer_resize`
with size `2^62 - 5` finds the wrapped pointer sum `first + size` at slot 5,
makes no reservation and returns with `last = 5 < first`; and on a 32-bit
target a full buffer of `0x55555555` one-byte elements that receives one more
element returns from `buffer_insert` with `last` beyond `capacity`.  In both
runs the cursors were ordered before and the allocator answers every call. -/
theorem resize_and_insert_wrap_break_cursor_order :
    (sample_buffer.wf ∧
      (sample_buffer.cap < 4611686018427387899 →
        complex_cfg.static_allocate sample_world.log
          (complex_cfg.sizeofT * 4611686018427387899) = some 100) ∧
      ∃ w2 b2, buffer_resize complex_cfg 4611686018427387899 20 sample_world sample_buffer =
          Outcome.done w2 b2 ∧
        b2.first = 10 ∧ b2.last = 5 ∧ ¬ b2.wf) ∧
    (huge_buffer.wf ∧
      (byte32_cfg false).static_allocate huge_world.log
        ((byte32_cfg false).sizeofT * ((huge_buffer.size + 1) * 3 / 2)) = some 1610612736 ∧
      ∃ w2 b2, buffer_insert (byte32_cfg false) (huge_buffer.first + huge_buffer.size) 8 (8 + 1)
          huge_world huge_buffer = Outcome.done w2 b2 ∧
        b2.capacity < b2.last ∧ ¬ b2.wf) :=
  ⟨⟨by decide, fun _ => rfl, _, _, rfl, by decide, by decide, by decide⟩,
    ⟨by decide, rfl, _, _, rfl, by decide, by decide⟩⟩

/-- C15: from ordered cursors that are addresses in range and with an
allocator that answers a call with a block inside the address space, each of
`buffer_reserve`, `buffer_resize`, `buffer_clear`, `buffer_insert` and
`buffer_erase` returns with a capacity `capacity - first` at least the one
before, for every requested size: one below the current size, and one whose
byte count or pointer sum wraps around as well. -/
theorem capacity_never_shrinks (cfg : Cfg) (w : World T) (b : buffer) (hs : 0 < cfg.sizeofT)
    (hcap : cfg.in_range b.capacity) (hwf : b.wf) :
    (∀ n nf,
      (¬ cfg.ptr_add b.first n ≤ b.capacity →
        cfg.static_allocate w.log (cfg.to_size (cfg.sizeofT * n)) = some nf ∧
        cfg.sizeofT * nf + cfg.to_size (cfg.sizeofT * n) < 2 ^ cfg.size_bits) →
      ∃ w2 b2, buffer_reserve cfg n w b = Outcome.done w2 b2 ∧ b.cap ≤ b2.cap) ∧
    (∀ k nf value,
      (¬ cfg.ptr_add b.first k ≤ b.capacity →
        cfg.static_allocate w.log (cfg.to_size (cfg.sizeofT * k)) = some nf ∧
        cfg.sizeofT * nf + cfg.to_size (cfg.sizeofT * k) < 2 ^ cfg.size_bits) →
      ∃ w2 b2, buffer_resize cfg k value w b = Outcome.done w2 b2 ∧ b.cap ≤ b2.cap) ∧
    b.cap ≤ (buffer_clear cfg w b).2.cap ∧
    (∀ p m sfirst nf, p ≤ b.size →
      (cfg.ptr_add b.first (insert_newsize cfg b m) > b.capacity →
        ¬ cfg.ptr_add b.first (insert_request cfg b m) ≤ b.capacity →
        cfg.static_allocate w.log
          (cfg.to_size (cfg.sizeofT * insert_request cfg b m)) = some nf ∧
        cfg.sizeofT * nf + cfg.to_size (cfg.sizeofT * insert_request cfg b m) <
          2 ^ cfg.size_bits) →
      ∃ w2 b2, buffer_insert cfg (b.first + p) sfirst (sfirst + m) w b = Outcome.done w2 b2 ∧
        b.cap ≤ b2.cap) ∧
    (∀ i j, i ≤ j → j ≤ b.size →
      ∃ w2 b2 ret, buffer_erase cfg (b.first + i) (b.first + j) w b = some (w2, b2, ret) ∧
        b.cap ≤ b2.cap) := by
  obtain ⟨h1, h2⟩ := hwf
  refine ⟨?_, ?_, ?_, ?_, ?_⟩
  · intro n nf ha
    obtain ⟨w2, hw2, hlt⟩ := buffer_reserve_cursors cfg n nf w b hs h1 h2 ha
    refine ⟨w2, _, hw2, ?_⟩
    unfold buffer.cap
    split
    · exact le_refl _
    · rename_i hc
      have := hlt hc
      simp only; omega
  · intro k nf value ha
    obtain ⟨w2, hw2, hlt⟩ := buffer_resize_cursors cfg k nf value w b hs h1 h2 ha
    refine ⟨w2, _, hw2, ?_⟩
    unfold buffer.cap
    split
    · exact le_refl _
    · rename_i hc
      have := hlt hc
      simp only; omega
  · exact le_refl _
  · intro p m sfirst nf hp ha
    obtain ⟨w2, b2, hw2, hcase⟩ :=
      buffer_insert_outcome cfg p m sfirst nf w b hs ⟨h1, h2⟩ hcap hp ha
    refine ⟨w2, b2, hw2, ?_⟩
    rcases hcase with ⟨_, _, hb2, hlt, _⟩ | ⟨_, hb2, _⟩
    · rw [hb2]
      unfold buffer.cap at *
      simp only; omega
    · rw [hb2]
      exact le_refl _
  · intro i j hij hj
    unfold buffer.size at hj
    obtain ⟨w2, hw2⟩ := buffer_erase_cursors cfg i j w b h1 hij hj
    exact ⟨w2, _, _, hw2, le_refl _⟩

/-- Witness for C15: the full sample buffer under the complex instantiation. -/
theorem capacity_never_shrinks_witness :
    0 < complex_cfg.sizeofT ∧ complex_cfg.in_range sample_buffer.capacity ∧ sample_buffer.wf ∧
    ((∀ n nf,
      (¬ complex_cfg.ptr_add sample_buffer.first n ≤ sample_buffer.capacity →
        complex_cfg.static_allocate sample_world.log
          (complex_cfg.to_size (complex_cfg.sizeofT * n)) = some nf ∧
        complex_cfg.sizeofT * nf + complex_cfg.to_size (complex_cfg.sizeofT * n) <
          2 ^ complex_cfg.size_bits) →
      ∃ w2 b2, buffer_reserve complex_cfg n sample_world sample_buffer = Outcome.done w2 b2 ∧
        sample_buffer.cap ≤ b2.cap) ∧
    (∀ k nf value,
      (¬ complex_cfg.ptr_add sample_buffer.first k ≤ sample_buffer.capacity →
        complex_cfg.static_allocate sample_world.log
          (complex_cfg.to_size (complex_cfg.sizeofT * k)) = some nf ∧
        complex_cfg.sizeofT * nf + complex_cfg.to_size (complex_cfg.sizeofT * k) <
          2 ^ complex_cfg.size_bits) →
      ∃ w2 b2, buffer_resize complex_cfg k value sample_world sample_buffer =
        Outcome.done w2 b2 ∧ sample_buffer.cap ≤ b2.cap) ∧
    sample_buffer.cap ≤ (buffer_clear complex_cfg sample_world sample_buffer).2.cap ∧
    (∀ p m sfirst nf, p ≤ sample_buffer.size →
      (complex_cfg.ptr_add sample_buffer.first (insert_newsize complex_cfg sample_buffer m) >
          sample_buffer.capacity →
        ¬ complex_cfg.ptr_add sample_buffer.first (insert_request complex_cfg sample_buffer m) ≤
          sample_buffer.capacity →
        complex_cfg.static_allocate sample_world.log
          (complex_cfg.to_size
            (complex_cfg.sizeofT * insert_request complex_cfg sample_buffer m)) = some nf ∧
        complex_cfg.sizeofT * nf +
          complex_cfg.to_size
            (complex_cfg.sizeofT * insert_request complex_cfg sample_buffer m) <
          2 ^ complex_cfg.size_bits) →
      ∃ w2 b2, buffer_insert complex_cfg (sample_buffer.first + p) sfirst (sfirst + m)
        sample_world sample_buffer = Outcome.done w2 b2 ∧ sample_buffer.cap ≤ b2.cap) ∧
    (∀ i j, i ≤ j → j ≤ sample_buffer.size →
      ∃ w2 b2 ret, buffer_erase complex_cfg (sample_buffer.first + i) (sample_buffer.first + j)
        sample_world sample_buffer = some (w2, b2, ret) ∧ sample_buffer.cap ≤ b2.cap)) :=
  ⟨by decide, by decide, by decide,
    capacity_never_shrinks complex_cfg sample_world sample_buffer
      (by decide) (by decide) (by decide)⟩

/-! ## The scenario -/

/-- C13: from `buffer_init`, inserting `[1, 2, 3]` at the end, inserting `[9]`
at offset 1, erasing offsets `[0, 1)`, resizing to 5 with fill 0 (the value
slot 30 holds, passed by reference) and clearing give in turn the contents `[1, 2, 3]`, `[1, 9, 2, 3]`, `[9, 2, 3]`,
`[9, 2, 3, 0, 0]` and `[]`, and the clear leaves the capacity as it was, for
the plain and for the complex trait. -/
theorem scenario_contents (pod : Bool) :
    ∃ w1 b1 w2 b2 w3 b3 ret w4 b4,
      buffer_insert (bump_cfg pod) (buffer_init scenario_world sample_buffer).2.last 10 13
        (buffer_init scenario_world sample_buffer).1
        (buffer_init scenario_world sample_buffer).2 = Outcome.done w1 b1 ∧
      b1.holds w1 [1, 2, 3] ∧
      buffer_insert (bump_cfg pod) (b1.first + 1) 20 21 w1 b1 = Outcome.done w2 b2 ∧
      b2.holds w2 [1, 9, 2, 3] ∧
      buffer_erase (bump_cfg pod) (b2.first + 0) (b2.first + 1) w2 b2 = some (w3, b3, ret) ∧
      b3.holds w3 [9, 2, 3] ∧
      buffer_resize (bump_cfg pod) 5 30 w3 b3 = Outcome.done w4 b4 ∧
      b4.holds w4 [9, 2, 3, 0, 0] ∧
      (buffer_clear (bump_cfg pod) w4 b4).2.holds (buffer_clear (bump_cfg pod) w4 b4).1 [] ∧
      (buffer_clear (bump_cfg pod) w4 b4).2.cap = b4.cap := by
  cases pod
  · exact ⟨_, _, _, _, _, _, _, _, _, rfl, by decide, rfl, by decide, rfl, by decide, rfl,
      by decide, by decide, by decide⟩
  · exact ⟨_, _, _, _, _, _, _, _, _, rfl, by decide, rfl, by decide, rfl, by decide, rfl,
      by decide, by decide, by decide⟩

/-! ## Generic swap -/

/-- C16: for a type without a member swap, `swap(a, b)` takes the
temporary-based overload; afterwards `a` has the old value of `b` and `b` the
old value of `a`, and exactly one temporary was constructed. -/
theorem swap_fallback_exchanges (a b : T) :
    swap none a b = swap_impl_fallback a b ∧
    (swap none a b).1 = (b, a) ∧
    (swap none a b).2.count SwapOp.construct_temporary = 1 ∧
    (swap none a b).2.count SwapOp.member_swap = 0 := by
  refine ⟨rfl, rfl, ?_, ?_⟩
  · show [SwapOp.construct_temporary, SwapOp.assign, SwapOp.assign].count
      SwapOp.construct_temporary = 1
    decide
  · show [SwapOp.construct_temporary, SwapOp.assign, SwapOp.assign].count
      SwapOp.member_swap = 0
    decide

/-! ## The range moves -/

/-- The backward move in terms of slot lists: for a destination at or above
the source (strictly above for a complex type) the destination range ends up
with the former contents of the source range. -/
theorem buffer_bmove_urange_slots (pod : Bool) (dest first last : Nat) (w : World T)
    (h : first ≤ last) (hd : first ≤ dest) (hc : pod = true ∨ first < dest) :
    ∃ w2, buffer_bmove_urange pod dest first last w = some w2 ∧
      w2.slots dest (last - first) = w.slots first (last - first) := by
  obtain ⟨w2, hw2, hA, _⟩ := buffer_bmove_urange_mem pod dest first last w h hd hc
  refine ⟨w2, hw2, ?_⟩
  apply World.slots_congr
  intro i hi
  rw [hA (dest + i) (by omega) (by omega)]
  congr 1; omega

/-- C17 (the code at the failing input): the complex backward move of the
range `[10, 13)` holding `[1, 2, 3]` to `dest = 10` returns, and the
destination range then holds no object at all; the plain overload at the same
input leaves `[1, 2, 3]`. -/
theorem bmove_onto_itself_destroys :
    (∃ w2, buffer_bmove_urange false 10 10 13 sample_world = some w2 ∧
      w2.slots 10 3 = [none, none, none] ∧
      sample_world.slots 10 3 = [some 1, some 2, some 3] ∧
      w2.log = [Event.construct 12, Event.destroy 12, Event.construct 11, Event.destroy 11,
        Event.construct 10, Event.destroy 10]) ∧
    (∃ w3, buffer_bmove_urange true 10 10 13 sample_world = some w3 ∧
      w3.slots 10 3 = [some 1, some 2, some 3]) :=
  ⟨⟨_, rfl, by decide, by decide, by decide⟩, ⟨_, rfl, by decide⟩⟩

/-- C18: the forward move ends and is right whenever the destination range
does not overlap the source range: the destination then holds the former
contents of the source.  It is wrong for some overlapping range with
`first < dest < last`: moving `[10, 13)` holding `[1, 2, 3]` to `dest = 11`
leaves a destination that differs from `[1, 2, 3]` and from what the backward
move produces. -/
theorem forward_move_only_without_overlap (pod : Bool) :
    (∀ (w : World T) (dest first last : Nat), first ≤ last →
      (dest + (last - first) ≤ first ∨ last ≤ dest) →
      ∃ w2, buffer_move_urange pod dest first last w = some w2 ∧
        w2.slots dest (last - first) = w.slots first (last - first)) ∧
    (∃ (w : World Nat) (dest first last : Nat) (w2 w3 : World Nat),
      first < dest ∧ dest < last ∧
      buffer_move_urange pod dest first last w = some w2 ∧
      buffer_bmove_urange pod dest first last w = some w3 ∧
      w2.slots dest (last - first) ≠ w.slots first (last - first) ∧
      w2.slots dest (last - first) ≠ w3.slots dest (last - first) ∧
      w3.slots dest (last - first) = w.slots first (last - first)) := by
  constructor
  · intro w dest first last h hd
    obtain ⟨w2, hw2, _⟩ := buffer_move_urange_log pod dest first last w h
    refine ⟨w2, hw2, ?_⟩
    apply World.slots_congr
    intro i hi
    rw [buffer_move_urange_mem pod dest first last w w2 h hd hw2, if_pos (by omega)]
    congr 1; omega
  · cases pod
    · exact ⟨sample_world, 11, 10, 13, _, _, by decide, by decide, rfl, rfl, by decide,
        by decide, by decide⟩
    · exact ⟨sample_world, 11, 10, 13, _, _, by decide, by decide, rfl, rfl, by decide,
        by decide, by decide⟩

/-! ## Plain and complex variants over a plain-value element type -/

/-- At the destructor `destroy_at` the functions with a destructor parameter
are the functions of the embedding. -/
theorem with_destroy_at_eq (cfg : Cfg) (w : World T) (b : buffer) :
    (∀ pod first last, buffer_destroy_range_with destroy_at pod first last w =
      buffer_destroy_range pod first last w) ∧
    (∀ pod dest first last, buffer_move_urange_with destroy_at pod dest first last w =
      buffer_move_urange pod dest first last w) ∧
    (∀ pod dest first last, buffer_bmove_urange_with destroy_at pod dest first last w =
      buffer_bmove_urange pod dest first last w) ∧
    (∀ n, buffer_reserve_with destroy_at cfg n w b = buffer_reserve cfg n w b) ∧
    (∀ k v, buffer_resize_with destroy_at cfg k v w b = buffer_resize cfg k v w b) ∧
    (∀ pos sfirst slast, buffer_insert_with destroy_at cfg pos sfirst slast w b =
      buffer_insert cfg pos sfirst slast w b) ∧
    (∀ first last, buffer_erase_with destroy_at cfg first last w b =
      buffer_erase cfg first last w b) :=
  ⟨fun _ _ _ => rfl, fun _ _ _ _ => rfl, fun _ _ _ _ => rfl, fun _ => rfl, fun _ _ => rfl,
    fun _ _ _ => rfl, fun _ _ => rfl⟩

theorem loop_up1_mem_congr (body1 body2 : Nat → World T → World T)
    (h : ∀ q w w2, w.mem = w2.mem → (body1 q w).mem = (body2 q w2).mem) (n p : Nat)
    (w w2 : World T) (hw : w.mem = w2.mem) :
    (loop_up1 body1 n p w).mem = (loop_up1 body2 n p w2).mem := by
  induction n generalizing p w w2 with
  | zero => exact hw
  | succ n ih => exact ih (p + 1) _ _ (h p w w2 hw)

theorem loop_up2_mem_congr (body1 body2 : Nat → Nat → World T → World T)
    (h : ∀ d s w w2, w.mem = w2.mem → (body1 d s w).mem = (body2 d s w2).mem) (n dest src : Nat)
    (w w2 : World T) (hw : w.mem = w2.mem) :
    (loop_up2 body1 n dest src w).mem = (loop_up2 body2 n dest src w2).mem := by
  induction n generalizing dest src w w2 with
  | zero => exact hw
  | succ n ih => exact ih (dest + 1) (src + 1) _ _ (h dest src w w2 hw)

theorem loop_down2_mem_congr (body1 body2 : Nat → Nat → World T → World T)
    (h : ∀ d s w w2, w.mem = w2.mem → (body1 d s w).mem = (body2 d s w2).mem) (n dest src : Nat)
    (w w2 : World T) (hw : w.mem = w2.mem) :
    (loop_down2 body1 n dest src w).mem = (loop_down2 body2 n dest src w2).mem := by
  induction n generalizing dest src w w2 with
  | zero => exact hw
  | succ n ih => exact ih (dest - 1) (src - 1) _ _ (h (dest - 1) (src - 1) w w2 hw)

/-- Copying a slot in two worlds with the same slots gives the same slots,
whatever call is logged. -/
theorem World.put_copy_congr (w w2 : World T) (hw : w.mem = w2.mem) (p s : Nat) (e e2 : Event) :
    (w.put p (w.mem s) e).mem = (w2.put p (w2.mem s) e2).mem := by
  funext a
  simp only [World.put_mem, hw]

/-- With a destructor that does nothing to the stored value, the destroy-range
changes no slot, for either trait. -/
theorem buffer_destroy_range_trivial_mem (pod : Bool) (first last : Nat) (w : World T) :
    (buffer_destroy_range_with destroy_trivial pod first last w).mem = w.mem := by
  cases pod
  · simp only [buffer_destroy_range_with, buffer_destroy_range_traits_with]
    generalize last - first = n
    induction n generalizing first w with
    | zero => rfl
    | succ n ih => simp only [loop_up1]; rw [ih]; rfl
  · rfl

/-- The plain destroy-range changes nothing. -/
theorem buffer_destroy_range_plain (first last : Nat) (w : World T) :
    buffer_destroy_range true first last w = w := rfl

/-- Fill-range: the two variants store the same values. -/
theorem fill_variants_agree (first last value : Nat) (w w2 : World T) (hw : w.mem = w2.mem) :
    (buffer_fill_urange false first last value w).mem =
      (buffer_fill_urange true first last value w2).mem := by
  simp only [buffer_fill_urange, buffer_fill_urange_traits]
  apply loop_up1_mem_congr
  · intro q w3 w4 h
    exact World.put_copy_congr w3 w4 h q value _ _
  · exact hw

/-- The pointer sum does not depend on the trait. -/
theorem Cfg.ptr_add_with_pod (cfg : Cfg) (pd : Bool) (p n : Nat) :
    Cfg.ptr_add { cfg with pod := pd } p n = cfg.ptr_add p n := rfl

/-- The conversion to `size_t` does not depend on the trait. -/
theorem Cfg.to_size_with_pod (cfg : Cfg) (pd : Bool) (x : Nat) :
    Cfg.to_size { cfg with pod := pd } x = cfg.to_size x := rfl

/-- Forward move: the complex variant over a destructor without effect and
the plain variant end the same way with the same slots. -/
theorem move_variants_agree (dest first last : Nat) (w w2 : World T) (hw : w.mem = w2.mem) :
    same_slots (buffer_move_urange_with destroy_trivial false dest first last w)
      (buffer_move_urange true dest first last w2) := by
  simp only [buffer_move_urange_with, buffer_move_urange_traits_with, buffer_move_urange,
    buffer_move_urange_traits]
  by_cases h : first ≤ last
  · simp only [h, if_true, same_slots]
    rw [buffer_destroy_range_trivial_mem]
    apply loop_up2_mem_congr
    · intro d s w3 w4 h2
      exact World.put_copy_congr w3 w4 h2 d s _ _
    · exact hw
  · simp only [h, if_false, same_slots]

/-- Backward move: the complex variant over a destructor without effect and
the plain variant end the same way with the same slots. -/
theorem bmove_variants_agree (dest first last : Nat) (w w2 : World T) (hw : w.mem = w2.mem) :
    same_slots (buffer_bmove_urange_with destroy_trivial false dest first last w)
      (buffer_bmove_urange true dest first last w2) := by
  simp only [buffer_bmove_urange_with, buffer_bmove_urange_traits_with, buffer_bmove_urange,
    buffer_bmove_urange_traits]
  by_cases h : first ≤ last
  · simp only [h, if_true, same_slots]
    apply loop_down2_mem_congr
    · intro d s w3 w4 h2
      rw [buffer_destroy_range_trivial_mem]
      exact World.put_copy_congr w3 w4 h2 d s _ _
    · exact hw
  · simp only [h, if_false, same_slots]

/-- Reserve: the two variants agree. -/
theorem reserve_variants_agree (cfg : Cfg) (n : Nat) (w : World T) (b : buffer) :
    Outcome.agree (buffer_reserve_with destroy_trivial { cfg with pod := false } n w b)
      (buffer_reserve { cfg with pod := true } n w b) := by
  simp only [buffer_reserve_with, buffer_reserve, Cfg.ptr_add_with_pod, Cfg.to_size_with_pod]
  generalize cfg.to_size (cfg.sizeofT * n) = bytes
  by_cases hc : cfg.ptr_add b.first n ≤ b.capacity
  · simp only [hc, if_true, Outcome.agree, and_self]
  · simp only [hc, if_false]
    cases cfg.static_allocate w.log bytes with
    | none => simp only [Outcome.agree, and_self]
    | some nf =>
      have hm := move_variants_agree nf b.first b.last
        (w.note (Event.allocate bytes (some nf)))
        (w.note (Event.allocate bytes (some nf))) rfl
      simp only
      cases hC : buffer_move_urange_with destroy_trivial false nf b.first b.last
          (w.note (Event.allocate bytes (some nf))) <;>
        cases hP : buffer_move_urange true nf b.first b.last
          (w.note (Event.allocate bytes (some nf))) <;>
        simp only [hC, hP, same_slots] at hm ⊢
      · trivial
      · exact ⟨rfl, by simp only [World.note_mem, hm]⟩

/-- The second half of insert: the two variants agree, from worlds with the
same slots. -/
theorem insert_finish_variants_agree (cfg : Cfg) (offset newsize sfirst slast : Nat)
    (w1 w2 : World T) (b1 : buffer) (hw : w1.mem = w2.mem) :
    Outcome.agree
      (insert_finish_with destroy_trivial { cfg with pod := false } offset newsize sfirst slast
        w1 b1)
      (insert_finish { cfg with pod := true } offset newsize sfirst slast w2 b1) := by
  have hcopy : ∀ (pos1 : Nat) (w3 w4 : World T), w3.mem = w4.mem →
      (loop_up2 copy_construct (slast - sfirst) pos1 sfirst w3).mem =
        (loop_up2 copy_construct (slast - sfirst) pos1 sfirst w4).mem := by
    intro pos1 w3 w4 h
    apply loop_up2_mem_congr
    · intro d s w5 w6 h2
      exact World.put_copy_congr w5 w6 h2 d s _ _
    · exact h
  simp only [insert_finish_with, insert_finish, Cfg.ptr_add_with_pod]
  generalize cfg.ptr_add b1.first newsize = newlast
  generalize cfg.ptr_add b1.first offset = pos1
  generalize cfg.ptr_add pos1 (slast - sfirst) = dest
  by_cases hp : pos1 = b1.last
  · simp only [hp, ne_eq, not_true_eq_false, if_false]
    by_cases hs : sfirst ≤ slast
    · simp only [hs, if_true, Outcome.agree, true_and]
      exact hcopy _ w1 w2 hw
    · simp only [hs, if_false, Outcome.agree]
  · have hm := bmove_variants_agree dest pos1 b1.last w1 w2 hw
    simp only [ne_eq, hp, not_false_eq_true, if_true]
    cases hC : buffer_bmove_urange_with destroy_trivial false dest pos1 b1.last w1 <;>
      cases hP : buffer_bmove_urange true dest pos1 b1.last w2 <;>
      simp only [hC, hP, same_slots] at hm ⊢
    · trivial
    · by_cases hs : sfirst ≤ slast
      · simp only [hs, if_true, Outcome.agree, true_and]
        exact hcopy _ _ _ hm
      · simp only [hs, if_false, Outcome.agree]

/-- The function `buffer_insert_with` is a reservation followed by
`insert_finish_with`. -/
theorem buffer_insert_with_eq (dtor : Nat → World T → World T) (cfg : Cfg)
    (pos sfirst slast : Nat) (w : World T) (b : buffer) :
    buffer_insert_with dtor cfg pos sfirst slast w b =
      match (if cfg.ptr_add b.first (cfg.to_size ((b.last - b.first) + (slast - sfirst))) >
            b.capacity then
          buffer_reserve_with dtor cfg
            (cfg.to_size (cfg.to_size ((b.last - b.first) + (slast - sfirst)) * 3) / 2) w b
        else Outcome.done w b) with
      | Outcome.done w1 b1 =>
        insert_finish_with dtor cfg (pos - b.first)
          (cfg.to_size ((b.last - b.first) + (slast - sfirst))) sfirst slast w1 b1
      | r1 => r1 := by
  unfold buffer_insert_with insert_finish_with
  rfl

/-- Insert: the two variants agree. -/
theorem insert_variants_agree (cfg : Cfg) (pos sfirst slast : Nat) (w : World T) (b : buffer) :
    Outcome.agree
      (buffer_insert_with destroy_trivial { cfg with pod := false } pos sfirst slast w b)
      (buffer_insert { cfg with pod := true } pos sfirst slast w b) := by
  rw [buffer_insert_with_eq, buffer_insert_eq]
  simp only [Cfg.ptr_add_with_pod, Cfg.to_size_with_pod]
  generalize cfg.to_size ((b.last - b.first) + (slast - sfirst)) = newsize
  generalize cfg.to_size (newsize * 3) / 2 = request
  by_cases hc : cfg.ptr_add b.first newsize > b.capacity
  · simp only [hc, if_true]
    have hr := reserve_variants_agree cfg request w b
    cases hC : buffer_reserve_with destroy_trivial { cfg with pod := false } request w b <;>
      cases hP : buffer_reserve { cfg with pod := true } request w b <;>
      simp only [hC, hP, Outcome.agree] at hr ⊢
    · obtain ⟨hb, hm⟩ := hr
      subst hb
      exact insert_finish_variants_agree cfg _ _ _ _ _ _ _ hm
    · exact hr
  · simp only [hc, if_false]
    exact insert_finish_variants_agree cfg _ _ _ _ w w b rfl

/-- Resize: the two variants agree. -/
theorem resize_variants_agree (cfg : Cfg) (k v : Nat) (w : World T) (b : buffer) :
    Outcome.agree (buffer_resize_with destroy_trivial { cfg with pod := false } k v w b)
      (buffer_resize { cfg with pod := true } k v w b) := by
  have hr := reserve_variants_agree cfg k w b
  simp only [buffer_resize_with, buffer_resize]
  cases hC : buffer_reserve_with destroy_trivial { cfg with pod := false } k w b <;>
    cases hP : buffer_reserve { cfg with pod := true } k w b <;>
    simp only [hC, hP, Outcome.agree] at hr ⊢
  · obtain ⟨hb, hm⟩ := hr
    subst hb
    refine ⟨rfl, ?_⟩
    rw [buffer_destroy_range_trivial_mem, buffer_destroy_range_plain]
    exact fill_variants_agree _ _ v _ _ hm
  · exact hr

/-- Erase: the two variants agree. -/
theorem erase_variants_agree (cfg : Cfg) (first last : Nat) (w : World T) (b : buffer) :
    erase_agree (buffer_erase_with destroy_trivial { cfg with pod := false } first last w b)
      (buffer_erase { cfg with pod := true } first last w b) := by
  simp only [buffer_erase_with, buffer_erase]
  by_cases h : last ≤ b.last
  · simp only [h, if_true, erase_agree, true_and]
    rw [buffer_destroy_range_trivial_mem, buffer_destroy_range_plain]
  · simp only [h, if_false, erase_agree]

/-- Agreement of two outcomes that return means the same contents, the same
size and the same capacity. -/
theorem Outcome.agree_done (w1 w2 : World T) (b1 b2 : buffer)
    (h : Outcome.agree (Outcome.done w1 b1) (Outcome.done w2 b2)) :
    b1.elems w1 = b2.elems w2 ∧ b1.size = b2.size ∧ b1.cap = b2.cap := by
  obtain ⟨hb, hm⟩ := h
  subst hb
  refine ⟨?_, rfl, rfl⟩
  simp only [buffer.elems, World.slots, hm]

/-- C19: over an element type whose destructor does nothing to the stored
value (copies and moves being value copies throughout), the complex and the
plain variant of fill-range, forward move and backward move leave the same
slots for every input, and `buffer_reserve`, `buffer_resize`, `buffer_insert`
and `buffer_erase` end the same way with the same cursors and the same slots
under either variant, hence with the same contents, size and capacity. -/
theorem plain_and_complex_variants_agree (cfg : Cfg) (w : World T) (b : buffer) :
    (∀ first last v, (buffer_fill_urange false first last v w).mem =
      (buffer_fill_urange true first last v w).mem) ∧
    (∀ dest first last,
      same_slots (buffer_move_urange_with destroy_trivial false dest first last w)
        (buffer_move_urange_with destroy_trivial true dest first last w)) ∧
    (∀ dest first last,
      same_slots (buffer_bmove_urange_with destroy_trivial false dest first last w)
        (buffer_bmove_urange_with destroy_trivial true dest first last w)) ∧
    (∀ n, Outcome.agree (buffer_reserve_with destroy_trivial { cfg with pod := false } n w b)
      (buffer_reserve_with destroy_trivial { cfg with pod := true } n w b)) ∧
    (∀ k v, Outcome.agree (buffer_resize_with destroy_trivial { cfg with pod := false } k v w b)
      (buffer_resize_with destroy_trivial { cfg with pod := true } k v w b)) ∧
    (∀ pos sfirst slast,
      Outcome.agree
        (buffer_insert_with destroy_trivial { cfg with pod := false } pos sfirst slast w b)
        (buffer_insert_with destroy_trivial { cfg with pod := true } pos sfirst slast w b)) ∧
    (∀ first last,
      erase_agree (buffer_erase_with destroy_trivial { cfg with pod := false } first last w b)
        (buffer_erase_with destroy_trivial { cfg with pod := true } first last w b)) ∧
    (∀ (w1 w2 : World T) (b1 b2 : buffer),
      Outcome.agree (Outcome.done w1 b1) (Outcome.done w2 b2) →
      b1.elems w1 = b2.elems w2 ∧ b1.size = b2.size ∧ b1.cap = b2.cap) :=
  ⟨fun first last v => fill_variants_agree first last v w w rfl,
    fun dest first last => move_variants_agree dest first last w w rfl,
    fun dest first last => bmove_variants_agree dest first last w w rfl,
    fun n => reserve_variants_agree cfg n w b,
    fun k v => resize_variants_agree cfg k v w b,
    fun pos sfirst slast => insert_variants_agree cfg pos sfirst slast w b,
    fun first last => erase_variants_agree cfg first last w b,
    fun w1 w2 b1 b2 h => Outcome.agree_done w1 w2 b1 b2 h⟩

/-! ## Lifetimes -/

/-- C20 (the code at the failing input): the sample buffer has its three
slots live and no spare slot; inserting the empty range `[20, 20)` at offset
1 for a complex type returns, but the calls it made break the lifetime rule
(the first one constructs into the live slot 12), and afterwards the slots 11
and 12 of `[first, last)` are raw. -/
theorem insert_empty_range_breaks_lifetimes :
    sample_buffer.lifetimes_ok sample_world = true ∧
    ∃ w2 b2, buffer_insert complex_cfg 11 20 20 sample_world sample_buffer = Outcome.done w2 b2 ∧
      w2.log.head? = some (Event.construct 12) ∧ sample_world.live 12 = true ∧
      (lifetime_replay sample_world.live w2.log).isSome = false ∧
      b2.first ≤ 11 ∧ 12 < b2.last ∧ w2.live 11 = false ∧ w2.live 12 = false ∧
      b2.lifetimes_ok w2 = false :=
  ⟨by decide, _, _, rfl, by decide, by decide, by decide, by decide, by decide, by decide,
    by decide, by decide⟩

/-- The lifetime rule on a run without the empty insert: through the scenario
(insert at the end with reallocation, insert in the middle, erase, resize
with reallocation, clear) for a complex type every destructor call is on a
live slot and every constructor call on a raw one, and after each step
exactly the slots of `[first, last)` are live. -/
theorem scenario_lifetimes :
    ∃ w1 b1 w2 b2 w3 b3 ret w4 b4,
      buffer_insert (bump_cfg false) 0 10 13 scenario_world empty_buffer = Outcome.done w1 b1 ∧
      b1.lifetimes_ok w1 = true ∧
      buffer_insert (bump_cfg false) (b1.first + 1) 20 21 w1 b1 = Outcome.done w2 b2 ∧
      b2.lifetimes_ok w2 = true ∧
      buffer_erase (bump_cfg false) (b2.first + 0) (b2.first + 1) w2 b2 = some (w3, b3, ret) ∧
      b3.lifetimes_ok w3 = true ∧
      buffer_resize (bump_cfg false) 5 30 w3 b3 = Outcome.done w4 b4 ∧
      b4.lifetimes_ok w4 = true ∧
      (buffer_clear (bump_cfg false) w4 b4).2.lifetimes_ok (buffer_clear (bump_cfg false) w4 b4).1
        = true ∧
      (lifetime_replay scenario_world.live
        (buffer_clear (bump_cfg false) w4 b4).1.log).isSome = true :=
  ⟨_, _, _, _, _, _, _, _, _, rfl, by decide, rfl, by decide, rfl, by decide, rfl, by decide,
    by decide, by decide⟩

end tinystl
